import Mathlib

/-!
Shallow embedding of the chanlun structural engine
(`src/chanlun_local/engine.py`, classes `SimpleICL` / `ChanlunEngine`).

Prices and strengths are exact rationals standing in for the source's
floats (the engine only adds, subtracts, scales and compares them);
timestamps are naturals; pandas DataFrames become `List Bar`.
-/

set_option linter.unusedVariables false

namespace Chanlun

/-- Price / strength type: exact rationals stand in for Python floats. -/
abbrev Price := ℚ

/-- Direction of a stroke or segment: the source's "up" / "down" strings. -/
inductive Direction where
  | up
  | down
deriving DecidableEq, Repr

/-- One K-line row of the input DataFrame (`date/open/high/low/close/volume`). -/
structure Bar where
  date : ℕ
  open_ : Price
  high : Price
  low : Price
  close : Price
  volume : Price
deriving DecidableEq, Repr

instance : Inhabited Bar := ⟨⟨0, 0, 0, 0, 0, 0⟩⟩

/-- Fractal kind: `"ding"` (peak) or `"di"` (trough). -/
inductive FXKind where
  | ding
  | di
deriving DecidableEq, Repr

/-- A fractal dict produced by `SimpleICL._calculate_fx`
(keys `type/index/time/price`; the `kline` back-reference is dropped). -/
structure FX where
  type : FXKind
  index : ℕ
  time : ℕ
  price : Price
deriving DecidableEq, Repr

instance : Inhabited FX := ⟨⟨.ding, 0, 0, 0⟩⟩

/-- The peak condition of `_calculate_fx` at interior bar `i`:
`curr.high > prev.high and curr.high > next.high and curr.low >= prev.low`. -/
abbrev peakCond (df : List Bar) (i : ℕ) : Prop :=
  (df.getD i default).high > (df.getD (i - 1) default).high ∧
  (df.getD i default).high > (df.getD (i + 1) default).high ∧
  (df.getD i default).low ≥ (df.getD (i - 1) default).low

/-- The trough condition of `_calculate_fx` at interior bar `i`:
`curr.low < prev.low and curr.low < next.low and curr.high <= prev.high`. -/
abbrev troughCond (df : List Bar) (i : ℕ) : Prop :=
  (df.getD i default).low < (df.getD (i - 1) default).low ∧
  (df.getD i default).low < (df.getD (i + 1) default).low ∧
  (df.getD i default).high ≤ (df.getD (i - 1) default).high

/-- One loop iteration of `SimpleICL._calculate_fx`: classify interior bar `i`
as a peak (`ding`), a trough (`di`, via `elif`) or nothing. -/
def fxAt (df : List Bar) (i : ℕ) : Option FX :=
  if peakCond df i then
    some ⟨.ding, i, (df.getD i default).date, (df.getD i default).high⟩
  else if troughCond df i then
    some ⟨.di, i, (df.getD i default).date, (df.getD i default).low⟩
  else
    none

/-- `SimpleICL._calculate_fx`: scan interior bars `i ∈ range(1, len(df) - 1)`. -/
def calculate_fx (df : List Bar) : List FX :=
  (List.range (df.length - 2)).filterMap (fun k => fxAt df (k + 1))

lemma fxAt_index {df : List Bar} {i : ℕ} {fx : FX} (h : fxAt df i = some fx) :
    fx.index = i := by
  unfold fxAt at h
  split_ifs at h <;> (injection h with h; subst h; rfl)

lemma troughCond_not_peakCond {df : List Bar} {i : ℕ} (h : troughCond df i) :
    ¬ peakCond df i := by
  rintro ⟨h1, -, -⟩
  exact absurd h.2.2 (not_le.mpr h1)

lemma fxAt_ding {df : List Bar} {i : ℕ} {fx : FX} (h : fxAt df i = some fx)
    (hty : fx.type = FXKind.ding) : peakCond df i := by
  unfold fxAt at h
  split_ifs at h with h1 h2
  · exact h1
  · injection h with h; subst h; exact absurd hty (by simp)

lemma fxAt_di {df : List Bar} {i : ℕ} {fx : FX} (h : fxAt df i = some fx)
    (hty : fx.type = FXKind.di) : troughCond df i := by
  unfold fxAt at h
  split_ifs at h with h1 h2
  · injection h with h; subst h; exact absurd hty (by simp)
  · exact h2

lemma calculate_fx_sorted (df : List Bar) :
    (calculate_fx df).Pairwise (fun a b => a.index < b.index) := by
  unfold calculate_fx
  refine List.Pairwise.filterMap _ ?_ (List.pairwise_lt_range _)
  intro a b hab c hc d hd
  rw [fxAt_index hc, fxAt_index hd]
  omega

/-- **C7** — `SimpleICL._calculate_fx` classifies interior bar `i` as a peak
exactly when `high[i] > high[i-1] ∧ high[i] > high[i+1] ∧ low[i] ≥ low[i-1]`,
as a trough exactly when `low[i] < low[i-1] ∧ low[i] < low[i+1] ∧
high[i] ≤ high[i-1]`, never as both; the returned fractals are strictly
ordered by bar index, and when no interior bar qualifies the result is the
empty list (not an error). -/
theorem calculate_fx_spec (df : List Bar) (hlen : 3 ≤ df.length) (i : ℕ)
    (h1 : 1 ≤ i) (h2 : i + 1 < df.length) :
    ((∃ fx ∈ calculate_fx df, fx.index = i ∧ fx.type = FXKind.ding) ↔ peakCond df i) ∧
    ((∃ fx ∈ calculate_fx df, fx.index = i ∧ fx.type = FXKind.di) ↔ troughCond df i) ∧
    (¬ (peakCond df i ∧ troughCond df i)) ∧
    (calculate_fx df).Pairwise (fun a b => a.index < b.index) ∧
    ((∀ k, 1 ≤ k → k + 1 < df.length → ¬ peakCond df k ∧ ¬ troughCond df k) →
      calculate_fx df = []) := by
  refine ⟨?_, ?_, ?_, calculate_fx_sorted df, ?_⟩
  · constructor
    · rintro ⟨fx, hmem, hidx, hty⟩
      rw [calculate_fx, List.mem_filterMap] at hmem
      obtain ⟨k, hk, hfx⟩ := hmem
      have hik : i = k + 1 := by rw [← hidx, fxAt_index hfx]
      exact hik ▸ fxAt_ding hfx hty
    · intro hpk
      refine ⟨⟨.ding, i, (df.getD i default).date, (df.getD i default).high⟩, ?_, rfl, rfl⟩
      rw [calculate_fx, List.mem_filterMap]
      refine ⟨i - 1, ?_, ?_⟩
      · rw [List.mem_range]; omega
      · have hi : i - 1 + 1 = i := by omega
        rw [hi]
        unfold fxAt
        rw [if_pos hpk]
  · constructor
    · rintro ⟨fx, hmem, hidx, hty⟩
      rw [calculate_fx, List.mem_filterMap] at hmem
      obtain ⟨k, hk, hfx⟩ := hmem
      have hik : i = k + 1 := by rw [← hidx, fxAt_index hfx]
      exact hik ▸ fxAt_di hfx hty
    · intro htr
      refine ⟨⟨.di, i, (df.getD i default).date, (df.getD i default).low⟩, ?_, rfl, rfl⟩
      rw [calculate_fx, List.mem_filterMap]
      refine ⟨i - 1, ?_, ?_⟩
      · rw [List.mem_range]; omega
      · have hi : i - 1 + 1 = i := by omega
        rw [hi]
        unfold fxAt
        rw [if_neg (troughCond_not_peakCond htr), if_pos htr]
  · rintro ⟨hpk, htr⟩
    exact troughCond_not_peakCond htr hpk
  · intro hnone
    rw [calculate_fx, List.filterMap_eq_nil_iff]
    intro k hk
    rw [List.mem_range] at hk
    have ⟨hp, ht⟩ := hnone (k + 1) (by omega) (by omega)
    unfold fxAt
    rw [if_neg hp, if_neg ht]

/-- Witness for C7 at a concrete 3-bar input with a peak at bar 1. -/
theorem calculate_fx_spec_witness :
    (3 ≤ ([⟨0, 1, 2, 1, 1, 0⟩, ⟨1, 1, 5, 2, 3, 0⟩, ⟨2, 1, 3, 1, 2, 0⟩] : List Bar).length) ∧
    (peakCond [⟨0, 1, 2, 1, 1, 0⟩, ⟨1, 1, 5, 2, 3, 0⟩, ⟨2, 1, 3, 1, 2, 0⟩] 1) := by
  have h := calculate_fx_spec
    [⟨0, 1, 2, 1, 1, 0⟩, ⟨1, 1, 5, 2, 3, 0⟩, ⟨2, 1, 3, 1, 2, 0⟩]
    (by decide) 1 (by decide) (by decide)
  exact ⟨by decide, h.1.mp (by decide)⟩

/-- Pivot level: the `zs_type` argument of `_calculate_zs` (`"bi"` / `"xd"`). -/
inductive ZSLevel where
  | bi
  | xd
deriving DecidableEq, Repr

/-- Pivot direction class: the source's `"up"` / `"down"` / `"zd"` (oscillating). -/
inductive ZSDir where
  | up
  | down
  | zd
deriving DecidableEq, Repr

/-- `SimpleZS`: a pivot.  `high`/`low` are the constructor arguments
(set to `zg`/`zd` by `_calculate_zs`); `zg/zd/gg/dd` are the four key prices.
The constant fields `level/relation/done/real` are dropped. -/
structure SimpleZS where
  index : ℕ
  zs_type : ZSLevel
  direction : ZSDir
  start_time : ℕ
  end_time : ℕ
  high : Price
  low : Price
  zg : Price
  zd : Price
  gg : Price
  dd : Price
deriving DecidableEq, Repr

/-- `SimpleBC`: a divergence flag (`type`, `bc`, related pivot or `None`). -/
structure SimpleBC where
  type : ZSLevel
  bc : Bool
  zs : Option SimpleZS
deriving DecidableEq, Repr

/-- `SimpleMMD`: a turning-point marker (`name`, related pivot, message). -/
structure SimpleMMD where
  name : String
  zs : Option SimpleZS
  msg : String
deriving DecidableEq, Repr

/-- `SimpleBi`: a stroke.  The derived `high/low` and the `start/end`
fractal wrappers are omitted (they are recomputed from direction and
prices and are not read by the engine itself). -/
structure SimpleBi where
  index : ℕ
  type : Direction
  start_time : ℕ
  end_time : ℕ
  start_price : Price
  end_price : Price
  start_index : Option ℕ
  end_index : Option ℕ
  strength : Price
  mmds : List SimpleMMD
  bcs : List SimpleBC
deriving DecidableEq, Repr

instance : Inhabited SimpleBi :=
  ⟨⟨0, .up, 0, 0, 0, 0, none, none, 0, [], []⟩⟩

/-- `SimpleXD`: a segment.  The `ding_fx`/`di_fx` wrappers are omitted. -/
structure SimpleXD where
  index : ℕ
  type : Direction
  start_time : ℕ
  end_time : ℕ
  start_price : Price
  end_price : Price
  start_bi_index : Option ℕ
  end_bi_index : Option ℕ
  strength : Price
  mmds : List SimpleMMD
  bcs : List SimpleBC
deriving DecidableEq, Repr

instance : Inhabited SimpleXD :=
  ⟨⟨0, .up, 0, 0, 0, 0, none, none, 0, [], []⟩⟩

/-- Direction of the candidate stroke for a fractal pair:
`di → ding` gives `"up"`, `ding → di` gives `"down"`, same kinds give none. -/
def biDirection (f1 f2 : FX) : Option Direction :=
  if f1.type = FXKind.di ∧ f2.type = FXKind.ding then some .up
  else if f1.type = FXKind.ding ∧ f2.type = FXKind.di then some .down
  else none

/-- One loop iteration of `SimpleICL._calculate_bi` on the pair `(f1, f2)`:
skip when the K-line count `f2.index - f1.index` is below `bi_min_kline`,
when both fractals have the same kind, or when the direction equals the
most recently accepted stroke's direction. -/
def tryBi (bi_min_kline : ℕ) (lastDir : Option Direction) (idx : ℕ)
    (f1 f2 : FX) : Option SimpleBi :=
  if (f2.index : ℤ) - (f1.index : ℤ) < (bi_min_kline : ℤ) then none
  else
    match biDirection f1 f2 with
    | none => none
    | some dir =>
      if lastDir = some dir then none
      else some { index := idx, type := dir,
                  start_time := f1.time, end_time := f2.time,
                  start_price := f1.price, end_price := f2.price,
                  start_index := some f1.index, end_index := some f2.index,
                  strength := 0, mmds := [], bcs := [] }

/-- The walk of `_calculate_bi` over consecutive fractal pairs, threading the
direction of the most recently accepted stroke and the next stroke index. -/
def calculate_bi_go (m : ℕ) (lastDir : Option Direction) (idx : ℕ) :
    List FX → List SimpleBi
  | f1 :: f2 :: rest =>
    match tryBi m lastDir idx f1 f2 with
    | some bi => bi :: calculate_bi_go m (some bi.type) (idx + 1) (f2 :: rest)
    | none => calculate_bi_go m lastDir idx (f2 :: rest)
  | _ => []

/-- `SimpleICL._calculate_bi` (fewer than 2 fractals yield zero strokes). -/
def calculate_bi (m : ℕ) (fx_list : List FX) : List SimpleBi :=
  if fx_list.length < 2 then [] else calculate_bi_go m none 0 fx_list

lemma tryBi_lastDir {m idx : ℕ} {lastDir : Option Direction} {f1 f2 : FX}
    {bi : SimpleBi} (h : tryBi m lastDir idx f1 f2 = some bi) :
    lastDir ≠ some bi.type := by
  unfold tryBi at h
  split_ifs at h
  cases hdir : biDirection f1 f2 with
  | none => rw [hdir] at h; exact absurd h (by simp)
  | some dir =>
    rw [hdir] at h
    dsimp only at h
    split_ifs at h with halt
    injection h with h
    subst h
    exact halt

lemma calculate_bi_go_alt (m : ℕ) (fxs : List FX) :
    ∀ (lastDir : Option Direction) (idx : ℕ),
    List.Chain' (fun a b : SimpleBi => a.type ≠ b.type)
      (calculate_bi_go m lastDir idx fxs) ∧
    (∀ bi ∈ (calculate_bi_go m lastDir idx fxs).head?, lastDir ≠ some bi.type) := by
  induction fxs with
  | nil => intro lastDir idx; simp [calculate_bi_go]
  | cons f1 t ih =>
    intro lastDir idx
    cases t with
    | nil => simp [calculate_bi_go]
    | cons f2 rest =>
      rw [calculate_bi_go]
      cases htry : tryBi m lastDir idx f1 f2 with
      | none => exact ih lastDir idx
      | some bi =>
        obtain ⟨ihc, ihh⟩ := ih (some bi.type) (idx + 1)
        refine ⟨List.Chain'.cons' ihc ?_, ?_⟩
        · intro b hb
          have := ihh b hb
          simp only [ne_eq, Option.some.injEq] at this ⊢
          exact this
        · intro b hb
          simp only [List.head?_cons, Option.mem_def, Option.some.injEq] at hb
          subst hb
          exact tryBi_lastDir htry

lemma calculate_bi_chain (m : ℕ) (fx_list : List FX) :
    List.Chain' (fun a b : SimpleBi => a.type ≠ b.type) (calculate_bi m fx_list) := by
  unfold calculate_bi
  split_ifs
  · exact List.chain'_nil
  · exact (calculate_bi_go_alt m fx_list none 0).1

/-- **C5** — strokes accepted by `SimpleICL._calculate_bi` strictly alternate
in direction: for every fractal list and every `i`,
`stroke[i].direction ≠ stroke[i+1].direction`. -/
theorem calculate_bi_alternates (m : ℕ) (fx_list : List FX) (i : ℕ)
    (h : i + 1 < (calculate_bi m fx_list).length) :
    ((calculate_bi m fx_list).getD i default).type ≠
      ((calculate_bi m fx_list).getD (i + 1) default).type := by
  have hc := calculate_bi_chain m fx_list
  rw [List.chain'_iff_get] at hc
  have := hc i (by omega)
  rwa [List.getD_eq_get _ _ (by omega), List.getD_eq_get _ _ (by omega)]

/-- Witness for C5: a fractal list yielding two strokes of opposite direction. -/
theorem calculate_bi_alternates_witness :
    0 + 1 < (calculate_bi 5 [⟨.di, 0, 0, 1⟩, ⟨.ding, 5, 5, 10⟩, ⟨.di, 10, 10, 2⟩]).length ∧
    ((calculate_bi 5 [⟨.di, 0, 0, 1⟩, ⟨.ding, 5, 5, 10⟩, ⟨.di, 10, 10, 2⟩]).getD 0 default).type ≠
      ((calculate_bi 5 [⟨.di, 0, 0, 1⟩, ⟨.ding, 5, 5, 10⟩, ⟨.di, 10, 10, 2⟩]).getD 1 default).type :=
  ⟨by decide, calculate_bi_alternates 5 _ 0 (by decide)⟩

/-- The run-scanning loop of `SimpleICL._calculate_xd`.  `fuel` bounds the
number of loop iterations (each consumes at least one stroke, so
`bis.length` is always enough); `i` is the absolute index of the current
position in the original stroke list. -/
def calculate_xd_go (m : ℕ) : ℕ → ℕ → ℕ → List SimpleBi → List SimpleXD
  | 0, _, _, _ => []
  | _ + 1, _, _, [] => []
  | fuel + 1, xdIdx, i, b :: rest =>
    let t := rest.takeWhile (fun x => decide (x.type = b.type))
    let rest' := rest.dropWhile (fun x => decide (x.type = b.type))
    let count := t.length + 1
    if m ≤ count then
      let endBi := (b :: t).getLastD default
      { index := xdIdx, type := b.type,
        start_time := b.start_time, end_time := endBi.end_time,
        start_price := b.start_price, end_price := endBi.end_price,
        start_bi_index := some i, end_bi_index := some (i + count - 1),
        strength := 0, mmds := [], bcs := [] } ::
        calculate_xd_go m fuel (xdIdx + 1) (i + count) rest'
    else calculate_xd_go m fuel xdIdx (i + count) rest'

/-- `SimpleICL._calculate_xd`: merge maximal runs of same-direction strokes
of length at least `xd_min_bi` into segments. -/
def calculate_xd (m : ℕ) (bis : List SimpleBi) : List SimpleXD :=
  if bis.length < m then [] else calculate_xd_go m bis.length 0 0 bis

lemma calculate_xd_go_nil (m fuel xdIdx i : ℕ) :
    calculate_xd_go m fuel xdIdx i [] = [] := by
  cases fuel <;> rfl

lemma calculate_xd_go_of_alternating (m : ℕ) (hm : 2 ≤ m) :
    ∀ (fuel xdIdx i : ℕ) (bis : List SimpleBi),
    List.Chain' (fun a b : SimpleBi => a.type ≠ b.type) bis →
    calculate_xd_go m fuel xdIdx i bis = [] := by
  intro fuel
  induction fuel with
  | zero => intro xdIdx i bis hch; rfl
  | succ fuel ih =>
    intro xdIdx i bis hch
    cases bis with
    | nil => rfl
    | cons b rest =>
      cases rest with
      | nil =>
        show calculate_xd_go m (fuel + 1) xdIdx i [b] = []
        rw [calculate_xd_go]
        simp only [List.takeWhile_nil, List.dropWhile_nil, List.length_nil]
        rw [if_neg (by omega)]
        exact calculate_xd_go_nil m fuel xdIdx (i + 1)
      | cons c rest2 =>
        have hbc : b.type ≠ c.type := (List.chain'_cons.mp hch).1
        have hpred : ¬ ((fun x : SimpleBi => decide (x.type = b.type)) c = true) := by
          simp only [decide_eq_true_eq]
          exact fun h => hbc h.symm
        rw [calculate_xd_go]
        rw [List.takeWhile_cons_of_neg (p := fun x : SimpleBi => decide (x.type = b.type))
              (a := c) (l := rest2) hpred,
            List.dropWhile_cons_of_neg (p := fun x : SimpleBi => decide (x.type = b.type))
              (a := c) (l := rest2) hpred]
        simp only [List.length_nil]
        rw [if_neg (by omega)]
        exact ih xdIdx (i + 1) (c :: rest2) hch.tail

lemma calculate_xd_of_alternating (m : ℕ) (hm : 2 ≤ m) (bis : List SimpleBi)
    (hch : List.Chain' (fun a b : SimpleBi => a.type ≠ b.type) bis) :
    calculate_xd m bis = [] := by
  unfold calculate_xd
  split_ifs
  · rfl
  · exact calculate_xd_go_of_alternating m hm bis.length 0 0 bis hch

/-- The fields of a stroke or segment that `_calculate_zs` reads
(duck typing in the source: `type/start_time/end_time/start_price/end_price`). -/
structure ZSItem where
  type : Direction
  start_time : ℕ
  end_time : ℕ
  start_price : Price
  end_price : Price
deriving DecidableEq, Repr

instance : Inhabited ZSItem := ⟨⟨.up, 0, 0, 0, 0⟩⟩

def SimpleBi.toZSItem (b : SimpleBi) : ZSItem :=
  ⟨b.type, b.start_time, b.end_time, b.start_price, b.end_price⟩

def SimpleXD.toZSItem (x : SimpleXD) : ZSItem :=
  ⟨x.type, x.start_time, x.end_time, x.start_price, x.end_price⟩

/-- `get_bi_range` in `_calculate_zs`: the (low, high) pair of an item —
`(start_price, end_price)` for an up item, `(end_price, start_price)` for
a down item. -/
def get_bi_range (bi : ZSItem) : Price × Price :=
  if bi.type = Direction.up then (bi.start_price, bi.end_price)
  else (bi.end_price, bi.start_price)

/-- Python's `min` over a list (0 on the empty list, which the source
never passes). -/
def pyMin : List Price → Price
  | [] => 0
  | x :: xs => xs.foldl min x

/-- Python's `max` over a list (0 on the empty list, which the source
never passes). -/
def pyMax : List Price → Price
  | [] => 0
  | x :: xs => xs.foldl max x

lemma foldl_min_le_init : ∀ (xs : List Price) (x : Price), xs.foldl min x ≤ x := by
  intro xs
  induction xs with
  | nil => intro x; exact le_refl x
  | cons y ys ih => intro x; exact le_trans (ih (min x y)) (min_le_left x y)

lemma foldl_min_le_mem : ∀ (xs : List Price) (x a : Price), a ∈ xs → xs.foldl min x ≤ a := by
  intro xs
  induction xs with
  | nil => intro x a ha; cases ha
  | cons y ys ih =>
    intro x a ha
    rcases List.mem_cons.mp ha with h | h
    · subst h; exact le_trans (foldl_min_le_init ys (min x a)) (min_le_right x a)
    · exact ih (min x y) a h

lemma foldl_min_mem : ∀ (xs : List Price) (x : Price),
    xs.foldl min x = x ∨ xs.foldl min x ∈ xs := by
  intro xs
  induction xs with
  | nil => intro x; exact Or.inl rfl
  | cons y ys ih =>
    intro x
    rcases ih (min x y) with h | h
    · rcases min_choice x y with hc | hc
      · exact Or.inl (by rw [List.foldl_cons, h, hc])
      · exact Or.inr (by rw [List.foldl_cons, h, hc]; exact List.mem_cons_self y ys)
    · exact Or.inr (List.mem_cons_of_mem y h)

lemma foldl_max_init_le : ∀ (xs : List Price) (x : Price), x ≤ xs.foldl max x := by
  intro xs
  induction xs with
  | nil => intro x; exact le_refl x
  | cons y ys ih => intro x; exact le_trans (le_max_left x y) (ih (max x y))

lemma foldl_max_mem_le : ∀ (xs : List Price) (x a : Price), a ∈ xs → a ≤ xs.foldl max x := by
  intro xs
  induction xs with
  | nil => intro x a ha; cases ha
  | cons y ys ih =>
    intro x a ha
    rcases List.mem_cons.mp ha with h | h
    · subst h; exact le_trans (le_max_right x a) (foldl_max_init_le ys (max x a))
    · exact ih (max x y) a h

lemma foldl_max_mem : ∀ (xs : List Price) (x : Price),
    xs.foldl max x = x ∨ xs.foldl max x ∈ xs := by
  intro xs
  induction xs with
  | nil => intro x; exact Or.inl rfl
  | cons y ys ih =>
    intro x
    rcases ih (max x y) with h | h
    · rcases max_choice x y with hc | hc
      · exact Or.inl (by rw [List.foldl_cons, h, hc])
      · exact Or.inr (by rw [List.foldl_cons, h, hc]; exact List.mem_cons_self y ys)
    · exact Or.inr (List.mem_cons_of_mem y h)

lemma pyMin_le_of_mem {l : List Price} {a : Price} (h : a ∈ l) : pyMin l ≤ a := by
  cases l with
  | nil => cases h
  | cons x xs =>
    rcases List.mem_cons.mp h with h' | h'
    · subst h'; exact foldl_min_le_init xs a
    · exact foldl_min_le_mem xs x a h'

lemma pyMin_mem {l : List Price} (h : l ≠ []) : pyMin l ∈ l := by
  cases l with
  | nil => exact absurd rfl h
  | cons x xs =>
    show xs.foldl min x ∈ x :: xs
    rcases foldl_min_mem xs x with h' | h'
    · rw [h']; exact List.mem_cons_self x xs
    · exact List.mem_cons_of_mem x h'

lemma pyMax_ge_of_mem {l : List Price} {a : Price} (h : a ∈ l) : a ≤ pyMax l := by
  cases l with
  | nil => cases h
  | cons x xs =>
    rcases List.mem_cons.mp h with h' | h'
    · subst h'; exact foldl_max_init_le xs a
    · exact foldl_max_mem_le xs x a h'

lemma pyMax_mem {l : List Price} (h : l ≠ []) : pyMax l ∈ l := by
  cases l with
  | nil => exact absurd rfl h
  | cons x xs =>
    show xs.foldl max x ∈ x :: xs
    rcases foldl_max_mem xs x with h' | h'
    · rw [h']; exact List.mem_cons_self x xs
    · exact List.mem_cons_of_mem x h'

/-- The scan loop of `SimpleICL._calculate_zs`.  `fuel` bounds the number of
loop iterations (`i` strictly increases each time, so `items.length + 1`
is always enough). -/
def calculate_zs_go (minb : ℕ) (level : ZSLevel) (items : List ZSItem) :
    ℕ → ℕ → ℕ → List SimpleZS
  | 0, _, _ => []
  | fuel + 1, i, zsIdx =>
    if i + minb ≤ items.length then
      let group := (items.drop i).take minb
      let ranges := group.map get_bi_range
      let zg0 := pyMin (ranges.map Prod.snd)
      let zd0 := pyMax (ranges.map Prod.fst)
      if zd0 < zg0 then
        let taken := (items.drop (i + minb)).takeWhile
          (fun u => decide ((get_bi_range u).1 ≤ zg0 ∧ zd0 ≤ (get_bi_range u).2))
        let zs_items := group ++ taken
        let all_ranges := zs_items.map get_bi_range
        let first3 := all_ranges.take 3
        let zg := pyMin (first3.map Prod.snd)
        let zd := pyMax (first3.map Prod.fst)
        let gg := pyMax (all_ranges.map Prod.snd)
        let dd := pyMin (all_ranges.map Prod.fst)
        let dir := if gg > zg ∧ dd < zd then ZSDir.zd
          else if gg > zg then ZSDir.up
          else if dd < zd then ZSDir.down
          else ZSDir.zd
        { index := zsIdx, zs_type := level, direction := dir,
          start_time := (zs_items.headD default).start_time,
          end_time := (zs_items.getLastD default).end_time,
          high := zg, low := zd, zg := zg, zd := zd, gg := gg, dd := dd } ::
          calculate_zs_go minb level items fuel (i + minb + taken.length) (zsIdx + 1)
      else
        calculate_zs_go minb level items fuel (i + 1) zsIdx
    else []

/-- `SimpleICL._calculate_zs`: detect pivots among consecutive items. -/
def calculate_zs (minb : ℕ) (level : ZSLevel) (items : List ZSItem) :
    List SimpleZS :=
  if items.length < minb then []
  else calculate_zs_go minb level items (items.length + 1) 0 0

lemma take3_ne_nil {α : Type} {l : List α} (h : l ≠ []) : l.take 3 ≠ [] := by
  rw [ne_eq, List.take_eq_nil_iff]
  simp [h]

lemma map_ne_nil {α β : Type} {l : List α} (f : α → β) (h : l ≠ []) : l.map f ≠ [] := by
  simpa using h

lemma zs_bounds (g t : List ZSItem) (hg : g ≠ [])
    (hov : pyMax ((g.map get_bi_range).map Prod.fst) <
           pyMin ((g.map get_bi_range).map Prod.snd)) :
    (pyMin (((((g ++ t).map get_bi_range)).take 3).map Prod.snd) ≤
       pyMax (((g ++ t).map get_bi_range).map Prod.snd) ∧
     pyMin (((g ++ t).map get_bi_range).map Prod.fst) ≤
       pyMax (((((g ++ t).map get_bi_range)).take 3).map Prod.fst)) ∧
    (3 ≤ g.length →
      pyMax (((((g ++ t).map get_bi_range)).take 3).map Prod.fst) <
        pyMin (((((g ++ t).map get_bi_range)).take 3).map Prod.snd)) := by
  have hall : (g ++ t).map get_bi_range ≠ [] := map_ne_nil _ (by simp [hg])
  have hf3 : ((g ++ t).map get_bi_range).take 3 ≠ [] := take3_ne_nil hall
  have hsub : ((g ++ t).map get_bi_range).take 3 ⊆ (g ++ t).map get_bi_range :=
    List.take_subset 3 _
  constructor
  · constructor
    · have hmem := pyMin_mem (map_ne_nil Prod.snd hf3)
      obtain ⟨r, hr, hrs⟩ := List.mem_map.mp hmem
      rw [← hrs]
      exact pyMax_ge_of_mem (List.mem_map_of_mem Prod.snd (hsub hr))
    · have hmem := pyMax_mem (map_ne_nil Prod.fst hf3)
      obtain ⟨r, hr, hrs⟩ := List.mem_map.mp hmem
      rw [← hrs]
      exact pyMin_le_of_mem (List.mem_map_of_mem Prod.fst (hsub hr))
  · intro h3
    have hlen3 : (3 : ℕ) ≤ (g.map get_bi_range).length := by simpa using h3
    have hsplit : ((g ++ t).map get_bi_range).take 3 = (g.map get_bi_range).take 3 := by
      rw [List.map_append]
      exact List.take_append_of_le_length hlen3
    rw [hsplit]
    have hgr : g.map get_bi_range ≠ [] := map_ne_nil _ hg
    have hf3g : (g.map get_bi_range).take 3 ≠ [] := take3_ne_nil hgr
    have hsubg : (g.map get_bi_range).take 3 ⊆ g.map get_bi_range := List.take_subset 3 _
    have h1 : pyMax (((g.map get_bi_range).take 3).map Prod.fst) ≤
        pyMax ((g.map get_bi_range).map Prod.fst) := by
      have hmem := pyMax_mem (map_ne_nil Prod.fst hf3g)
      obtain ⟨r, hr, hrs⟩ := List.mem_map.mp hmem
      rw [← hrs]
      exact pyMax_ge_of_mem (List.mem_map_of_mem Prod.fst (hsubg hr))
    have h2 : pyMin ((g.map get_bi_range).map Prod.snd) ≤
        pyMin (((g.map get_bi_range).take 3).map Prod.snd) := by
      have hmem := pyMin_mem (map_ne_nil Prod.snd hf3g)
      obtain ⟨r, hr, hrs⟩ := List.mem_map.mp hmem
      rw [← hrs]
      exact pyMin_le_of_mem (List.mem_map_of_mem Prod.snd (hsubg hr))
    exact lt_of_le_of_lt h1 (lt_of_lt_of_le hov h2)

lemma calculate_zs_go_valid (minb : ℕ) (level : ZSLevel) (items : List ZSItem)
    (hmin : 1 ≤ minb) :
    ∀ (fuel i zsIdx : ℕ), ∀ zs ∈ calculate_zs_go minb level items fuel i zsIdx,
      (zs.zg ≤ zs.gg ∧ zs.dd ≤ zs.zd) ∧ (3 ≤ minb → zs.zd < zs.zg) := by
  intro fuel
  induction fuel with
  | zero => intro i zsIdx zs hzs; cases hzs
  | succ fuel ih =>
    intro i zsIdx zs hzs
    rw [calculate_zs_go] at hzs
    by_cases hlen : i + minb ≤ items.length
    · rw [if_pos hlen] at hzs
      simp only at hzs
      by_cases hov : pyMax ((((items.drop i).take minb).map get_bi_range).map Prod.fst) <
          pyMin ((((items.drop i).take minb).map get_bi_range).map Prod.snd)
      · rw [if_pos hov] at hzs
        rcases List.mem_cons.mp hzs with hzs | hzs
        · subst hzs
          have hglen : ((items.drop i).take minb).length = minb := by
            rw [List.length_take, List.length_drop]
            omega
          have hg : (items.drop i).take minb ≠ [] := by
            intro hnil
            rw [hnil] at hglen
            simp at hglen
            omega
          refine ⟨⟨?_, ?_⟩, fun h3 => ?_⟩
          · exact (zs_bounds _ _ hg hov).1.1
          · exact (zs_bounds _ _ hg hov).1.2
          · exact (zs_bounds _ _ hg hov).2 (by rw [hglen]; exact h3)
        · exact ih _ _ zs hzs
      · rw [if_neg hov] at hzs
        exact ih _ _ zs hzs
    · rw [if_neg hlen] at hzs
      cases hzs

/-- **C2 (amended)** — every pivot emitted by `SimpleICL._calculate_zs`
satisfies `gg ≥ zg` and `dd ≤ zd` for any `min_units_per_pivot ≥ 1`; the
overlap invariant `zd < zg` additionally holds whenever
`min_units_per_pivot ≥ 3` (in particular at the default 3), since then the
final `zg`/`zd` recomputed from the first 3 extended members only tighten
the initial overlap test. -/
theorem calculate_zs_pivot_valid (minb : ℕ) (level : ZSLevel)
    (items : List ZSItem) (hmin : 1 ≤ minb) :
    ∀ zs ∈ calculate_zs minb level items,
      (zs.zg ≤ zs.gg ∧ zs.dd ≤ zs.zd) ∧ (3 ≤ minb → zs.zd < zs.zg) := by
  intro zs hzs
  unfold calculate_zs at hzs
  split_ifs at hzs
  · cases hzs
  · exact calculate_zs_go_valid minb level items hmin _ _ _ zs hzs

/-- Three overlapping items forming one pivot (witness input for C2). -/
def zsItemsA : List ZSItem :=
  [⟨.up, 0, 1, 1, 10⟩, ⟨.down, 1, 2, 9, 2⟩, ⟨.up, 2, 3, 3, 8⟩]

/-- The single pivot detected on `zsItemsA` at the default parameters. -/
def zsA : SimpleZS := ⟨0, .bi, .zd, 0, 3, 8, 3, 8, 3, 10, 1⟩

/-- Witness for C2 at the default `min_units_per_pivot = 3`. -/
theorem calculate_zs_pivot_valid_witness :
    ((1 : ℕ) ≤ 3 ∧ zsA ∈ calculate_zs 3 ZSLevel.bi zsItemsA) ∧
    ((zsA.zg ≤ zsA.gg ∧ zsA.dd ≤ zsA.zd) ∧ zsA.zd < zsA.zg) :=
  ⟨⟨by decide, by decide⟩,
   ⟨(calculate_zs_pivot_valid 3 ZSLevel.bi zsItemsA (by decide) zsA (by decide)).1,
    (calculate_zs_pivot_valid 3 ZSLevel.bi zsItemsA (by decide) zsA (by decide)).2
      (le_refl 3)⟩⟩

/-- Two items whose pivot (at `min_units_per_pivot = 1`) violates `zd < zg`:
the degenerate second item has a (low, high) range with low > high, and the
recomputation of `zg`/`zd` over the first 3 extended members breaks the
initial overlap. -/
def zsItemsB : List ZSItem :=
  [⟨.up, 0, 1, 0, 10⟩, ⟨.down, 2, 3, 5, 9⟩]

/-- The single pivot detected on `zsItemsB` at `min_units_per_pivot = 1`. -/
def zsB : SimpleZS := ⟨0, .bi, .zd, 0, 3, 5, 9, 5, 9, 10, 0⟩

/-- Counterexample to C2 as stated: with `min_units_per_pivot = 1` a detected
pivot has `zd = 9 > zg = 5`. -/
theorem calculate_zs_pivot_invalid_cex :
    zsB ∈ calculate_zs 1 ZSLevel.bi zsItemsB ∧ ¬ zsB.zd < zsB.zg :=
  ⟨by decide, by decide⟩

/-- Tail of pandas `ewm(span=s, adjust=False).mean()`:
`y_i = (1-α)·y_{i-1} + α·x_i`, seeded with `prev`. -/
def ewmaGo (alpha : ℚ) (prev : ℚ) : List ℚ → List ℚ
  | [] => []
  | x :: xs =>
    ((1 - alpha) * prev + alpha * x) :: ewmaGo alpha ((1 - alpha) * prev + alpha * x) xs

/-- pandas `ewm(span=s, adjust=False).mean()` with `α = 2/(s+1)`:
the first output equals the first input. -/
def ewma (alpha : ℚ) : List ℚ → List ℚ
  | [] => []
  | x :: xs => x :: ewmaGo alpha x xs

/-- The MACD histogram of `_calculate_strengths`:
`dif = EMA₁₂ − EMA₂₆`, `dea = EMA₉(dif)`, `hist = (dif − dea) × 2`
(spans 12/26/9, so `α = 2/13, 2/27, 2/10`). -/
def macd_hist (closes : List ℚ) : List ℚ :=
  let dif := List.zipWith (fun a b => a - b) (ewma (2/13) closes) (ewma (2/27) closes)
  let dea := ewma (2/10) dif
  List.zipWith (fun a b => (a - b) * 2) dif dea

/-- Per-stroke strength of `_calculate_strengths`:
up strokes sum the positive histogram values over the stroke's K-line
range, down strokes sum the absolute values of the negative ones; missing
indices give 0. -/
def bi_strength (hist : List ℚ) (bi : SimpleBi) : Price :=
  match bi.start_index, bi.end_index with
  | some si, some ei =>
    let s := min si ei
    let e := min (hist.length - 1) (max si ei)
    let seg := (hist.drop s).take (e + 1 - s)
    if bi.type = Direction.up then (seg.filter (fun v => decide (0 < v))).sum
    else ((seg.filter (fun v => decide (v < 0))).map (fun v => -v)).sum
  | _, _ => 0

/-- Per-segment strength of `_calculate_strengths`: the sum of the member
strokes' strengths; missing indices give 0. -/
def xd_strength (bis : List SimpleBi) (xd : SimpleXD) : Price :=
  match xd.start_bi_index, xd.end_bi_index with
  | some a, some b =>
    let s := min a b
    let e := min (bis.length - 1) (max a b)
    ((List.range (e + 1 - s)).map (fun k => (bis.getD (s + k) default).strength)).sum
  | _, _ => 0

/-- `SimpleICL._calculate_strengths`: annotate strokes, then segments
(no-op when there are no strokes, as in the source's early return). -/
def calculate_strengths (df : List Bar) (bis : List SimpleBi)
    (xds : List SimpleXD) : List SimpleBi × List SimpleXD :=
  if bis = [] then (bis, xds)
  else
    let hist := macd_hist (df.map Bar.close)
    let bis' := bis.map (fun bi => { bi with strength := bi_strength hist bi })
    let xds' := xds.map (fun xd => { xd with strength := xd_strength bis' xd })
    (bis', xds')

/-- Spec-side exponential smoothing recurrence over an index function:
`E 0 = x 0`, `E (i+1) = (1-α)·E i + α·x (i+1)`. -/
def emaF (alpha : ℚ) (x : ℕ → ℚ) : ℕ → ℚ
  | 0 => x 0
  | i + 1 => (1 - alpha) * emaF alpha x i + alpha * x (i + 1)

/-- Seeded variant of `emaF` (matches `ewmaGo`). -/
def emaG (alpha : ℚ) (p : ℚ) (x : ℕ → ℚ) : ℕ → ℚ
  | 0 => (1 - alpha) * p + alpha * x 0
  | i + 1 => (1 - alpha) * emaG alpha p x i + alpha * x (i + 1)

/-- Spec-side fast difference: `EMA₁₂ − EMA₂₆` of the closes. -/
def difF (close : ℕ → ℚ) (i : ℕ) : ℚ :=
  emaF (2/13) close i - emaF (2/27) close i

/-- Spec-side histogram: `2 × (fast_diff i − signal i)` with signal period 9. -/
def histF (close : ℕ → ℚ) (i : ℕ) : ℚ :=
  2 * (difF close i - emaF (2/10) (difF close) i)

/-- Spec-side up-stroke strength: the sum of all positive histogram values
on `[s, e]`. -/
def spec_pos_sum (h : ℕ → ℚ) (s e : ℕ) : ℚ :=
  (((List.range (e + 1 - s)).map (fun k => h (s + k))).filter (fun v => decide (0 < v))).sum

/-- Spec-side down-stroke strength: the sum of the absolute values of all
negative histogram values on `[s, e]`. -/
def spec_neg_sum (h : ℕ → ℚ) (s e : ℕ) : ℚ :=
  ((((List.range (e + 1 - s)).map (fun k => h (s + k))).filter (fun v => decide (v < 0))).map
    (fun v => -v)).sum

lemma length_ewmaGo (alpha : ℚ) : ∀ (p : ℚ) (xs : List ℚ),
    (ewmaGo alpha p xs).length = xs.length := by
  intro p xs
  induction xs generalizing p with
  | nil => rfl
  | cons x xs ih => simp [ewmaGo, ih]

lemma length_ewma (alpha : ℚ) (xs : List ℚ) : (ewma alpha xs).length = xs.length := by
  cases xs with
  | nil => rfl
  | cons x xs => simp [ewma, length_ewmaGo]

lemma length_macd_hist (closes : List ℚ) :
    (macd_hist closes).length = closes.length := by
  simp [macd_hist, List.length_zipWith, length_ewma]

lemma emaG_shift (alpha p : ℚ) (x : ℕ → ℚ) : ∀ i : ℕ,
    emaG alpha ((1 - alpha) * p + alpha * x 0) (fun k => x (k + 1)) i =
      emaG alpha p x (i + 1) := by
  intro i
  induction i with
  | zero => simp [emaG]
  | succ j ih => rw [emaG, ih]; rfl

lemma emaF_eq_emaG (alpha : ℚ) (x : ℕ → ℚ) : ∀ i : ℕ,
    emaF alpha x (i + 1) = emaG alpha (x 0) (fun k => x (k + 1)) i := by
  intro i
  induction i with
  | zero => simp [emaF, emaG]
  | succ j ih => rw [emaF, ih]; rfl

lemma ewmaGo_getD (alpha : ℚ) : ∀ (xs : List ℚ) (p : ℚ) (i : ℕ), i < xs.length →
    (ewmaGo alpha p xs).getD i 0 = emaG alpha p (fun k => xs.getD k 0) i := by
  intro xs
  induction xs with
  | nil => intro p i h; cases h
  | cons x xs ih =>
    intro p i h
    cases i with
    | zero => rfl
    | succ j =>
      have hj : j < xs.length := by simpa using h
      show (ewmaGo alpha ((1 - alpha) * p + alpha * x) xs).getD j 0 = _
      rw [ih _ j hj]
      have := emaG_shift alpha p (fun k => (x :: xs).getD k 0) j
      simp only at this ⊢
      rw [← this]
      rfl

lemma ewma_getD (alpha : ℚ) (xs : List ℚ) (i : ℕ) (h : i < xs.length) :
    (ewma alpha xs).getD i 0 = emaF alpha (fun k => xs.getD k 0) i := by
  cases xs with
  | nil => cases h
  | cons x xs =>
    cases i with
    | zero => rfl
    | succ j =>
      have hj : j < xs.length := by simpa using h
      show (ewmaGo alpha x xs).getD j 0 = _
      rw [ewmaGo_getD alpha xs x j hj, emaF_eq_emaG]
      rfl

lemma emaF_congr (alpha : ℚ) (x y : ℕ → ℚ) : ∀ i : ℕ, (∀ k, k ≤ i → x k = y k) →
    emaF alpha x i = emaF alpha y i := by
  intro i
  induction i with
  | zero => intro h; exact h 0 (le_refl 0)
  | succ j ih =>
    intro h
    rw [emaF, emaF, ih (fun k hk => h k (le_trans hk (Nat.le_succ j))),
      h (j + 1) (le_refl _)]

lemma zipWith_getD (f : ℚ → ℚ → ℚ) (as bs : List ℚ) (i : ℕ)
    (ha : i < as.length) (hb : i < bs.length) :
    (List.zipWith f as bs).getD i 0 = f (as.getD i 0) (bs.getD i 0) := by
  have hz : i < (List.zipWith f as bs).length := by
    rw [List.length_zipWith]; omega
  rw [List.getD_eq_getElem _ _ hz, List.getD_eq_getElem _ _ ha,
    List.getD_eq_getElem _ _ hb, List.getElem_zipWith]

lemma macd_hist_getD (closes : List ℚ) (i : ℕ) (h : i < closes.length) :
    (macd_hist closes).getD i 0 = histF (fun k => closes.getD k 0) i := by
  unfold macd_hist
  simp only
  have h12 : i < (ewma (2/13) closes).length := by rw [length_ewma]; exact h
  have h26 : i < (ewma (2/27) closes).length := by rw [length_ewma]; exact h
  have hdlen : (List.zipWith (fun a b => a - b) (ewma (2/13) closes)
      (ewma (2/27) closes)).length = closes.length := by
    rw [List.length_zipWith, length_ewma, length_ewma, min_self]
  have hdif : ∀ k, k < closes.length →
      (List.zipWith (fun a b => a - b) (ewma (2/13) closes)
        (ewma (2/27) closes)).getD k 0 = difF (fun j => closes.getD j 0) k := by
    intro k hk
    rw [zipWith_getD _ _ _ k (by rw [length_ewma]; exact hk) (by rw [length_ewma]; exact hk),
      ewma_getD _ _ _ hk, ewma_getD _ _ _ hk]
    rfl
  have hdea : i < (ewma (2/10) (List.zipWith (fun a b => a - b) (ewma (2/13) closes)
      (ewma (2/27) closes))).length := by
    rw [length_ewma, hdlen]; exact h
  rw [zipWith_getD _ _ _ i (by rw [hdlen]; exact h) hdea]
  rw [hdif i h]
  rw [ewma_getD _ _ _ (by rw [hdlen]; exact h)]
  rw [emaF_congr (2/10) _ (difF (fun j => closes.getD j 0)) i
    (fun k hk => hdif k (lt_of_le_of_lt hk h))]
  unfold histF
  ring

lemma slice_eq_range_map (l : List ℚ) (s cnt : ℕ) (h : s + cnt ≤ l.length) :
    (l.drop s).take cnt = (List.range cnt).map (fun k => l.getD (s + k) 0) := by
  apply List.ext_getElem
  · rw [List.length_take, List.length_drop, List.length_map, List.length_range]
    omega
  · intro i h1 h2
    have hi : i < cnt := by
      rw [List.length_take, List.length_drop] at h1
      omega
    have hsi : s + i < l.length := by omega
    rw [List.getElem_take, List.getElem_drop]
    rw [List.getElem_map]
    rw [List.getElem_range]
    rw [List.getD_eq_getElem _ _ hsi]

/-- **C8** — stroke and segment strengths: for a stroke with K-line range
`[s, e]` inside the bar list, `bi_strength` equals the sum of the positive
histogram values on `[s, e]` for an up stroke and the sum of the absolute
negative ones for a down stroke, where the histogram obeys the spec's
12/26/9 exponential-smoothing recurrences (`histF`); a segment's strength
is the sum of its member strokes' strengths; missing index metadata gives
strength 0. -/
theorem calculate_strengths_spec (df : List Bar) :
    (∀ (bi : SimpleBi) (s e : ℕ), bi.start_index = some s → bi.end_index = some e →
      s ≤ e → e < df.length →
      bi_strength (macd_hist (df.map Bar.close)) bi =
        if bi.type = Direction.up then
          spec_pos_sum (histF (fun k => (df.map Bar.close).getD k 0)) s e
        else
          spec_neg_sum (histF (fun k => (df.map Bar.close).getD k 0)) s e) ∧
    (∀ bi : SimpleBi, bi.start_index = none ∨ bi.end_index = none →
      bi_strength (macd_hist (df.map Bar.close)) bi = 0) ∧
    (∀ (bis : List SimpleBi) (xd : SimpleXD) (a b : ℕ),
      xd.start_bi_index = some a → xd.end_bi_index = some b → a ≤ b → b < bis.length →
      xd_strength bis xd =
        ((List.range (b + 1 - a)).map (fun k => (bis.getD (a + k) default).strength)).sum) ∧
    (∀ (bis : List SimpleBi) (xd : SimpleXD),
      xd.start_bi_index = none ∨ xd.end_bi_index = none → xd_strength bis xd = 0) := by
  have hlen : (macd_hist (df.map Bar.close)).length = df.length := by
    rw [length_macd_hist, List.length_map]
  refine ⟨?_, ?_, ?_, ?_⟩
  · intro bi s e hs he hse hedf
    unfold bi_strength
    rw [hs, he]
    simp only
    have hmin : min s e = s := min_eq_left hse
    have hmax : max s e = e := max_eq_right hse
    have hmine : min ((macd_hist (df.map Bar.close)).length - 1) (max s e) = e := by
      rw [hmax, hlen]; omega
    rw [hmin, hmine]
    have hslice := slice_eq_range_map (macd_hist (df.map Bar.close)) s (e + 1 - s)
      (by rw [hlen]; omega)
    rw [hslice]
    have hmapeq : (List.range (e + 1 - s)).map
        (fun k => (macd_hist (df.map Bar.close)).getD (s + k) 0) =
        (List.range (e + 1 - s)).map
        (fun k => histF (fun j => (df.map Bar.close).getD j 0) (s + k)) := by
      apply List.map_congr_left
      intro k hk
      rw [List.mem_range] at hk
      exact macd_hist_getD (df.map Bar.close) (s + k) (by rw [List.length_map]; omega)
    rw [hmapeq]
    rfl
  · intro bi h
    unfold bi_strength
    rcases h with h | h
    · rw [h]
    · rw [h]; cases hsi : bi.start_index <;> rfl
  · intro bis xd a b ha hb hab hblen
    unfold xd_strength
    rw [ha, hb]
    simp only
    have hmin : min a b = a := min_eq_left hab
    have hmax : min (bis.length - 1) (max a b) = b := by
      rw [max_eq_right hab]; omega
    rw [hmin, hmax]
  · intro bis xd h
    unfold xd_strength
    rcases h with h | h
    · rw [h]
    · rw [h]; cases hsi : xd.start_bi_index <;> rfl

/-- Witness input for C8: a single bar. -/
def dfW : List Bar := [⟨0, 1, 2, 1, 3, 0⟩]

/-- Witness stroke for C8 spanning bar range `[0, 0]`. -/
def biW : SimpleBi := ⟨0, .up, 0, 0, 1, 3, some 0, some 0, 0, [], []⟩

/-- Witness for C8 at a concrete one-bar input. -/
theorem calculate_strengths_spec_witness :
    bi_strength (macd_hist (dfW.map Bar.close)) biW =
      if biW.type = Direction.up then
        spec_pos_sum (histF (fun k => (dfW.map Bar.close).getD k 0)) 0 0
      else
        spec_neg_sum (histF (fun k => (dfW.map Bar.close).getD k 0)) 0 0 :=
  (calculate_strengths_spec dfW).1 biW 0 0 rfl rfl (Nat.le_refl 0) (by decide)

/-- `SimpleICL._find_related_zs`: the first pivot whose time range overlaps
`[start_time, end_time]` (scan order), or none. -/
def find_related_zs (start_time end_time : ℕ) (zss : List SimpleZS) :
    Option SimpleZS :=
  zss.find? (fun zs => decide (start_time ≤ zs.end_time ∧ zs.start_time ≤ end_time))

/-- `SimpleICL._is_leaving_zs`: a down item leaves below `zd`; any other
(up) item leaves above `zg`. -/
def is_leaving_zs (ty : Direction) (end_price : Price) (zs : SimpleZS) : Bool :=
  if ty = Direction.down then decide (end_price < zs.zd)
  else decide (zs.zg < end_price)

/-- `SimpleICL._check_bi_divergence`: same direction, both strengths
positive, more extreme end price, and current strength `< 0.8 ×` prior
strength. -/
def check_bi_divergence (prev curr : SimpleBi) : Bool :=
  if prev.type ≠ curr.type then false
  else if prev.strength ≤ 0 ∨ curr.strength ≤ 0 then false
  else if prev.type = Direction.up then
    decide (prev.end_price < curr.end_price ∧ curr.strength < prev.strength * (4/5))
  else
    decide (curr.end_price < prev.end_price ∧ curr.strength < prev.strength * (4/5))

/-- The backward scan `range(i-2, -1, -2)` of the divergence loops. -/
def scan_js (i : ℕ) : List ℕ :=
  if i < 2 then [] else (List.range ((i - 2) / 2 + 1)).map (fun k => i - 2 - 2 * k)

/-- The inner-loop test of `_calculate_bi_bcs_and_mmds` at pair `(i, j)`:
not skipped for direction mismatch, and `_check_bi_divergence` holds. -/
def biQualifies (bis : List SimpleBi) (i j : ℕ) : Bool :=
  decide ((bis.getD i default).type = (bis.getD j default).type) &&
    check_bi_divergence (bis.getD j default) (bis.getD i default)

/-- The claim-side divergence condition for a pair of same-direction
strokes: both strengths positive, the later stroke's end price more
extreme (higher high for up, lower low for down), and the later strength
below `0.8 ×` the earlier one. -/
def bi_divergence_conds (prev curr : SimpleBi) : Prop :=
  prev.type = curr.type ∧ 0 < prev.strength ∧ 0 < curr.strength ∧
  ((curr.type = Direction.up ∧ prev.end_price < curr.end_price) ∨
   (curr.type = Direction.down ∧ curr.end_price < prev.end_price)) ∧
  curr.strength < prev.strength * (4/5)

lemma biQualifies_iff (bis : List SimpleBi) (i j : ℕ) :
    biQualifies bis i j = true ↔
      bi_divergence_conds (bis.getD j default) (bis.getD i default) := by
  unfold biQualifies check_bi_divergence bi_divergence_conds
  rw [Bool.and_eq_true, decide_eq_true_eq]
  constructor
  · rintro ⟨hty, hdiv⟩
    split_ifs at hdiv with h1 h2 h3
    · rw [decide_eq_true_eq] at hdiv
      rw [not_or, not_le, not_le] at h2
      exact ⟨hty.symm, h2.1, h2.2, Or.inl ⟨hty.trans h3, hdiv.1⟩, hdiv.2⟩
    · rw [decide_eq_true_eq] at hdiv
      rw [not_or, not_le, not_le] at h2
      have hdown : (bis.getD i default).type = Direction.down := by
        rw [hty]
        cases hp : (bis.getD j default).type
        · exact absurd hp h3
        · rfl
      exact ⟨hty.symm, h2.1, h2.2, Or.inr ⟨hdown, hdiv.1⟩, hdiv.2⟩
  · rintro ⟨hty, hsp, hsc, hdir, hst⟩
    have hty' : (bis.getD i default).type = (bis.getD j default).type := hty.symm
    refine ⟨hty', ?_⟩
    rw [if_neg (fun hne => hne hty), if_neg (by
      rw [not_or, not_le, not_le]
      exact ⟨hsp, hsc⟩)]
    rcases hdir with ⟨hcu, he⟩ | ⟨hcd, he⟩
    · rw [if_pos (hty.trans hcu), decide_eq_true_eq]
      exact ⟨he, hst⟩
    · rw [if_neg (by
        rw [hty, hcd]
        intro hc
        cases hc), decide_eq_true_eq]
      exact ⟨he, hst⟩

/-- The divergence flag recorded on stroke `i` by
`_calculate_bi_bcs_and_mmds`: none when there are fewer than 5 strokes,
when `i < 2`, or when no backward-scanned pair qualifies; otherwise one
`SimpleBC` whose pivot is the first time-overlapping pivot. -/
def bi_bc_flag (bis : List SimpleBi) (zss : List SimpleZS) (i : ℕ) :
    Option SimpleBC :=
  if bis.length < 5 then none
  else if i < 2 then none
  else
    match (scan_js i).find? (fun j => biQualifies bis i j) with
    | some _ => some ⟨ZSLevel.bi, true,
        find_related_zs (bis.getD i default).start_time
          (bis.getD i default).end_time zss⟩
    | none => none

/-- The first-type markers appended to stroke `i` by
`_calculate_bi_bcs_and_mmds` (`1buy`/`1sell` when the flagged stroke has a
related pivot and leaves it). -/
def bi_mmds_for (bis : List SimpleBi) (zss : List SimpleZS) (i : ℕ) :
    List SimpleMMD :=
  match bi_bc_flag bis zss i with
  | none => []
  | some bc =>
    match bc.zs with
    | none => []
    | some zs =>
      if is_leaving_zs (bis.getD i default).type (bis.getD i default).end_price zs then
        if (bis.getD i default).type = Direction.down then
          [⟨"1buy", some zs, "笔背驰一买"⟩]
        else [⟨"1sell", some zs, "笔背驰一卖"⟩]
      else []

/-- `SimpleICL._calculate_bi_bcs_and_mmds` as a per-stroke annotation map. -/
def calculate_bi_bcs_and_mmds (bis : List SimpleBi) (zss : List SimpleZS) :
    List SimpleBi :=
  bis.mapIdx (fun i bi =>
    { bi with bcs := bi.bcs ++ (bi_bc_flag bis zss i).toList,
              mmds := bi.mmds ++ bi_mmds_for bis zss i })

/-- **C6 (amended)** — for stroke lists with at least 5 strokes and `i ≥ 2`,
`_calculate_bi_bcs_and_mmds` flags stroke `i` exactly when the backward
scan in steps of 2 contains a prior same-direction stroke `j` with a more
extreme end price and strength `< 0.8 ×` the prior's (both positive); the
single recorded flag is associated with the first pivot (in scan order)
whose time range overlaps the stroke's, or none; and the pass changes a
stroke only by appending that flag and its markers. -/
theorem bi_bc_flag_spec (bis : List SimpleBi) (zss : List SimpleZS) (i : ℕ)
    (h5 : 5 ≤ bis.length) (h2 : 2 ≤ i) :
    ((bi_bc_flag bis zss i).isSome ↔
      ∃ j ∈ scan_js i, bi_divergence_conds (bis.getD j default) (bis.getD i default)) ∧
    (∀ bc, bi_bc_flag bis zss i = some bc →
      bc = ⟨ZSLevel.bi, true,
        find_related_zs (bis.getD i default).start_time
          (bis.getD i default).end_time zss⟩) ∧
    (i < bis.length →
      (calculate_bi_bcs_and_mmds bis zss).getD i default =
        { bis.getD i default with
            bcs := (bis.getD i default).bcs ++ (bi_bc_flag bis zss i).toList,
            mmds := (bis.getD i default).mmds ++ bi_mmds_for bis zss i }) := by
  refine ⟨?_, ?_, ?_⟩
  · rw [show (∃ j ∈ scan_js i,
        bi_divergence_conds (bis.getD j default) (bis.getD i default)) ↔
        ∃ j ∈ scan_js i, biQualifies bis i j = true from
      exists_congr fun j => and_congr_right fun _ => (biQualifies_iff bis i j).symm]
    unfold bi_bc_flag
    rw [if_neg (by omega), if_neg (by omega)]
    cases hf : (scan_js i).find? (fun j => biQualifies bis i j) with
    | none =>
      simp only [Option.isSome_none, Bool.false_eq_true, false_iff]
      intro hex
      have : ((scan_js i).find? (fun j => biQualifies bis i j)).isSome = true :=
        List.find?_isSome.mpr (by simpa using hex)
      rw [hf] at this
      cases this
    | some j =>
      simp only [Option.isSome_some, true_iff]
      have : ((scan_js i).find? (fun j => biQualifies bis i j)).isSome = true := by
        rw [hf]; rfl
      simpa using List.find?_isSome.mp this
  · intro bc hbc
    unfold bi_bc_flag at hbc
    rw [if_neg (by omega), if_neg (by omega)] at hbc
    cases hf : (scan_js i).find? (fun j => biQualifies bis i j) with
    | none => rw [hf] at hbc; cases hbc
    | some j =>
      rw [hf] at hbc
      injection hbc with hbc
      exact hbc.symm
  · intro hi
    unfold calculate_bi_bcs_and_mmds
    have hlen : i < (List.mapIdx (fun i bi =>
        { bi with bcs := bi.bcs ++ (bi_bc_flag bis zss i).toList,
                  mmds := bi.mmds ++ bi_mmds_for bis zss i }) bis).length := by
      rw [List.length_mapIdx]; exact hi
    rw [List.getD_eq_getElem _ _ hlen, List.getElem_mapIdx,
      ← List.getD_eq_getElem _ default hi]

/-- Three strokes where the pair `(2, 0)` satisfies every divergence
condition, yet no flag is recorded (input for the C6 counterexample). -/
def bisC6 : List SimpleBi :=
  [⟨0, .up, 0, 1, 1, 10, none, none, 10, [], []⟩,
   ⟨1, .down, 1, 2, 10, 2, none, none, 1, [], []⟩,
   ⟨2, .up, 2, 3, 2, 11, none, none, 1, [], []⟩]

/-- Counterexample to C6 as stated: with only 3 strokes the guard
`len(self._bis) < 5` suppresses the flag even though the backward scan
contains a qualifying pair. -/
theorem bi_bc_flag_short_list_cex :
    bi_bc_flag bisC6 [] 2 = none ∧
    0 ∈ scan_js 2 ∧ biQualifies bisC6 2 0 = true := by
  refine ⟨rfl, by decide, ?_⟩
  unfold biQualifies check_bi_divergence
  simp only [bisC6]
  norm_num

/-- **C9** — a stroke carrying a stroke-level divergence flag with an
associated pivot gets exactly one first-type marker exactly when its end
price has left that pivot: `1sell` for an up stroke ending above `zg`,
`1buy` for a down stroke ending below `zd`, and no marker otherwise. -/
theorem bi_first_type_marker_spec (bis : List SimpleBi) (zss : List SimpleZS)
    (i : ℕ) (bc : SimpleBC) (zs : SimpleZS)
    (hflag : bi_bc_flag bis zss i = some bc) (hzs : bc.zs = some zs) :
    bi_mmds_for bis zss i =
      if (bis.getD i default).type = Direction.up ∧
          zs.zg < (bis.getD i default).end_price then
        [⟨"1sell", some zs, "笔背驰一卖"⟩]
      else if (bis.getD i default).type = Direction.down ∧
          (bis.getD i default).end_price < zs.zd then
        [⟨"1buy", some zs, "笔背驰一买"⟩]
      else [] := by
  unfold bi_mmds_for
  rw [hflag]
  simp only
  rw [hzs]
  simp only [is_leaving_zs]
  cases hty : (bis.getD i default).type with
  | up =>
    by_cases hlv : zs.zg < (bis.getD i default).end_price
    · simp [hty, hlv]
    · simp [hty, hlv]
  | down =>
    by_cases hlv : (bis.getD i default).end_price < zs.zd
    · simp [hty, hlv]
    · simp [hty, hlv]

/-- Witness strokes for C9: five alternating strokes where stroke 2
diverges against stroke 0 and ends above the related pivot's `zg`. -/
def bisC9 : List SimpleBi :=
  [⟨0, .up, 0, 1, 1, 10, none, none, 10, [], []⟩,
   ⟨1, .down, 1, 2, 10, 2, none, none, 1, [], []⟩,
   ⟨2, .up, 2, 3, 2, 11, none, none, 1, [], []⟩,
   ⟨3, .down, 3, 4, 11, 3, none, none, 1, [], []⟩,
   ⟨4, .up, 4, 5, 3, 4, none, none, 1, [], []⟩]

/-- Witness pivot for C9, overlapping stroke 2's time range with `zg = 8`. -/
def zsC9 : SimpleZS := ⟨0, .bi, .zd, 0, 10, 8, 3, 8, 3, 11, 1⟩

lemma bisC9_qualifies : biQualifies bisC9 2 0 = true := by
  unfold biQualifies check_bi_divergence
  simp only [bisC9]
  norm_num

lemma bisC9_flag : bi_bc_flag bisC9 [zsC9] 2 = some ⟨ZSLevel.bi, true, some zsC9⟩ := by
  unfold bi_bc_flag
  rw [if_neg (by decide), if_neg (by decide)]
  have hs : scan_js 2 = [0] := rfl
  rw [hs, List.find?_cons_of_pos _ bisC9_qualifies]
  rfl

/-- Witness for C6 (amended): on a 5-stroke list, stroke 2 is flagged and
the pass only appends the flag and markers to it. -/
theorem bi_bc_flag_spec_witness :
    ((5 : ℕ) ≤ bisC9.length ∧ (2 : ℕ) ≤ 2) ∧
    (bi_bc_flag bisC9 [] 2).isSome = true ∧
    (calculate_bi_bcs_and_mmds bisC9 [] ).getD 2 default =
      { bisC9.getD 2 default with
          bcs := (bisC9.getD 2 default).bcs ++ (bi_bc_flag bisC9 [] 2).toList,
          mmds := (bisC9.getD 2 default).mmds ++ bi_mmds_for bisC9 [] 2 } :=
  ⟨⟨by decide, by decide⟩,
   (bi_bc_flag_spec bisC9 [] 2 (by decide) (by decide)).1.mpr
     ⟨0, by decide, (biQualifies_iff bisC9 2 0).mp bisC9_qualifies⟩,
   (bi_bc_flag_spec bisC9 [] 2 (by decide) (by decide)).2.2 (by decide)⟩


/-- Witness for C9: stroke 2 receives exactly one flag and one `1sell`. -/
theorem bi_first_type_marker_witness :
    bi_bc_flag bisC9 [zsC9] 2 = some ⟨ZSLevel.bi, true, some zsC9⟩ ∧
    bi_mmds_for bisC9 [zsC9] 2 = [⟨"1sell", some zsC9, "笔背驰一卖"⟩] := by
  refine ⟨bisC9_flag, ?_⟩
  rw [bi_first_type_marker_spec bisC9 [zsC9] 2 ⟨ZSLevel.bi, true, some zsC9⟩ zsC9
    bisC9_flag rfl]
  rw [if_pos ⟨by decide, by decide⟩]

/-- `SimpleICL._check_xd_divergence`: same rule as the stroke check, on
segments. -/
def check_xd_divergence (prev curr : SimpleXD) : Bool :=
  if prev.type ≠ curr.type then false
  else if prev.strength ≤ 0 ∨ curr.strength ≤ 0 then false
  else if prev.type = Direction.up then
    decide (prev.end_price < curr.end_price ∧ curr.strength < prev.strength * (4/5))
  else
    decide (curr.end_price < prev.end_price ∧ curr.strength < prev.strength * (4/5))

/-- The inner-loop test of `_calculate_xd_bcs_and_mmds` at pair `(i, j)`. -/
def xdQualifies (xds : List SimpleXD) (i j : ℕ) : Bool :=
  decide ((xds.getD i default).type = (xds.getD j default).type) &&
    check_xd_divergence (xds.getD j default) (xds.getD i default)

/-- The divergence flag recorded on segment `i` by
`_calculate_xd_bcs_and_mmds` (guard: fewer than 3 segments). -/
def xd_bc_flag (xds : List SimpleXD) (zss : List SimpleZS) (i : ℕ) :
    Option SimpleBC :=
  if xds.length < 3 then none
  else if i < 2 then none
  else
    match (scan_js i).find? (fun j => xdQualifies xds i j) with
    | some _ => some ⟨ZSLevel.xd, true,
        find_related_zs (xds.getD i default).start_time
          (xds.getD i default).end_time zss⟩
    | none => none

/-- The second-type markers appended to segment `i` by
`_calculate_xd_bcs_and_mmds` (`2buy` on a down segment, `2sell` on an up
segment, when the flagged segment has a related pivot and leaves it). -/
def xd_mmds_for (xds : List SimpleXD) (zss : List SimpleZS) (i : ℕ) :
    List SimpleMMD :=
  match xd_bc_flag xds zss i with
  | none => []
  | some bc =>
    match bc.zs with
    | none => []
    | some zs =>
      if is_leaving_zs (xds.getD i default).type (xds.getD i default).end_price zs then
        if (xds.getD i default).type = Direction.down then
          [⟨"2buy", some zs, "线段背驰二买"⟩]
        else [⟨"2sell", some zs, "线段背驰二卖"⟩]
      else []

/-- `SimpleICL._calculate_xd_bcs_and_mmds` as a per-segment annotation map. -/
def calculate_xd_bcs_and_mmds (xds : List SimpleXD) (zss : List SimpleZS) :
    List SimpleXD :=
  xds.mapIdx (fun i xd =>
    { xd with bcs := xd.bcs ++ (xd_bc_flag xds zss i).toList,
              mmds := xd.mmds ++ xd_mmds_for xds zss i })

/-- `get_xd_range` of the third-type and quasi passes: (low, high) as
min/max of start and end price. -/
def get_xd_range (xd : SimpleXD) : Price × Price :=
  (min xd.start_price xd.end_price, max xd.start_price xd.end_price)

/-- Up-breakout test of `_calculate_xd_class3_mmds`: an up segment starting
inside `(zd, zg)` whose high exceeds `zg`. -/
def upBreak (zs : SimpleZS) (xd : SimpleXD) : Bool :=
  decide (xd.type = Direction.up) &&
  decide (zs.zd < xd.start_price ∧ xd.start_price < zs.zg) &&
  decide (zs.zg < (get_xd_range xd).2)

/-- Down-breakout test of `_calculate_xd_class3_mmds`. -/
def downBreak (zs : SimpleZS) (xd : SimpleXD) : Bool :=
  decide (xd.type = Direction.down) &&
  decide (zs.zd < xd.start_price ∧ xd.start_price < zs.zg) &&
  decide ((get_xd_range xd).1 < zs.zd)

/-- Relative index of the first down segment (the inner `while` loop of the
third-type buy branch). -/
def findDownIdx : List SimpleXD → Option ℕ
  | [] => none
  | x :: xs =>
    if x.type = Direction.down then some 0
    else (findDownIdx xs).map (fun k => k + 1)

/-- Relative index of the first up segment (third-type sell branch). -/
def findUpIdx : List SimpleXD → Option ℕ
  | [] => none
  | x :: xs =>
    if x.type = Direction.up then some 0
    else (findUpIdx xs).map (fun k => k + 1)

/-- Relative index of the first segment leaving the pivot (the outer
`while` loop of `_calculate_xd_class3_mmds`, which breaks at the first
breakout in either direction). -/
def findBreakIdx (zs : SimpleZS) : List SimpleXD → Option ℕ
  | [] => none
  | x :: xs =>
    if upBreak zs x || downBreak zs x then some 0
    else (findBreakIdx zs xs).map (fun k => k + 1)

/-- The single `3buy`/`3sell` marker (with its target segment index)
contributed by one pivot in `_calculate_xd_class3_mmds`, if any:
find the last segment inside the pivot's time range, scan forward for a
breakout, then test the first opposite segment for not re-entering. -/
def class3_for_zs (xds : List SimpleXD) (zs : SimpleZS) :
    Option (ℕ × SimpleMMD) :=
  let inside := (List.range xds.length).filter
    (fun idx => decide (zs.start_time ≤ (xds.getD idx default).start_time ∧
                        (xds.getD idx default).end_time ≤ zs.end_time))
  match inside.getLast? with
  | none => none
  | some last =>
    match findBreakIdx zs (xds.drop (last + 1)) with
    | none => none
    | some k =>
      let i := last + 1 + k
      if upBreak zs (xds.getD i default) then
        match findDownIdx (xds.drop (i + 1)) with
        | none => none
        | some k2 =>
          if zs.zd < (get_xd_range (xds.getD (i + 1 + k2) default)).1 then
            some (i + 1 + k2, ⟨"3buy", some zs, "三类买点"⟩)
          else none
      else
        match findUpIdx (xds.drop (i + 1)) with
        | none => none
        | some k2 =>
          if (get_xd_range (xds.getD (i + 1 + k2) default)).2 < zs.zg then
            some (i + 1 + k2, ⟨"3sell", some zs, "三类卖点"⟩)
          else none

/-- Append one marker to the segment at index `j` (mutation step of
`_calculate_xd_class3_mmds`). -/
def appendMmdAt (xds : List SimpleXD) : Option (ℕ × SimpleMMD) → List SimpleXD
  | none => xds
  | some (j, m) => xds.mapIdx (fun k xd =>
      if k = j then { xd with mmds := xd.mmds ++ [m] } else xd)

/-- `SimpleICL._calculate_xd_class3_mmds`: one scan per segment pivot. -/
def calculate_xd_class3_mmds (xds : List SimpleXD) (zss : List SimpleZS) :
    List SimpleXD :=
  zss.foldl (fun acc zs => appendMmdAt acc (class3_for_zs acc zs)) xds

/-- The four trackers of `_calculate_xd_like_class2_and_class3_mmds`. -/
structure QuasiState where
  last2buy : Option SimpleXD
  last2sell : Option SimpleXD
  last3buy : Option SimpleXD
  last3sell : Option SimpleXD

/-- Overlap-and-improvement test of the quasi pass (buy side): price ranges
overlap and the current low is higher. -/
def quasiBuyCond (prev xd : SimpleXD) : Bool :=
  decide (max (get_xd_range xd).1 (get_xd_range prev).1 <
          min (get_xd_range xd).2 (get_xd_range prev).2) &&
  decide ((get_xd_range prev).1 < (get_xd_range xd).1)

/-- Overlap-and-improvement test of the quasi pass (sell side): price ranges
overlap and the current high is lower. -/
def quasiSellCond (prev xd : SimpleXD) : Bool :=
  decide (max (get_xd_range xd).1 (get_xd_range prev).1 <
          min (get_xd_range xd).2 (get_xd_range prev).2) &&
  decide ((get_xd_range xd).2 < (get_xd_range prev).2)

/-- One loop iteration of `_calculate_xd_like_class2_and_class3_mmds`:
append the quasi markers, then update the trackers from the (possibly
extended) marker names of the current segment. -/
def quasiStep (st : QuasiState) (xd : SimpleXD) : SimpleXD × QuasiState :=
  let a2b : List SimpleMMD :=
    match st.last2buy with
    | some prev =>
      if xd.type = Direction.up ∧ quasiBuyCond prev xd = true then
        [⟨"class2buy", none, "类第二类买点"⟩] else []
    | none => []
  let a2s : List SimpleMMD :=
    match st.last2sell with
    | some prev =>
      if xd.type = Direction.down ∧ quasiSellCond prev xd = true then
        [⟨"class2sell", none, "类第二类卖点"⟩] else []
    | none => []
  let a3b : List SimpleMMD :=
    match st.last3buy with
    | some prev =>
      if xd.type = Direction.up ∧ quasiBuyCond prev xd = true then
        [⟨"class3buy", none, "类第三类买点"⟩] else []
    | none => []
  let a3s : List SimpleMMD :=
    match st.last3sell with
    | some prev =>
      if xd.type = Direction.down ∧ quasiSellCond prev xd = true then
        [⟨"class3sell", none, "类第三类卖点"⟩] else []
    | none => []
  let xd' := { xd with mmds := xd.mmds ++ a2b ++ a2s ++ a3b ++ a3s }
  let names := xd'.mmds.map SimpleMMD.name
  (xd',
   { last2buy := if "2buy" ∈ names ∧ xd'.type = Direction.up then some xd' else st.last2buy,
     last2sell := if "2sell" ∈ names ∧ xd'.type = Direction.down then some xd' else st.last2sell,
     last3buy := if "3buy" ∈ names ∧ xd'.type = Direction.up then some xd' else st.last3buy,
     last3sell := if "3sell" ∈ names ∧ xd'.type = Direction.down then some xd' else st.last3sell })

/-- The scan of `_calculate_xd_like_class2_and_class3_mmds`. -/
def quasiGo (st : QuasiState) : List SimpleXD → List SimpleXD
  | [] => []
  | xd :: rest =>
    let p := quasiStep st xd
    p.1 :: quasiGo p.2 rest

/-- `SimpleICL._calculate_xd_like_class2_and_class3_mmds`. -/
def calculate_xd_like_class2_and_class3_mmds (xds : List SimpleXD) :
    List SimpleXD :=
  quasiGo ⟨none, none, none, none⟩ xds

/-- The algorithm parameters read from the config dict
(`bi_min_kline`/`xd_min_bi`/`zs_min_bi`, defaults 5/3/3). -/
structure ICLConfig where
  bi_min_kline : ℕ
  xd_min_bi : ℕ
  zs_min_bi : ℕ
deriving DecidableEq, Repr

/-- The source defaults: 5 K-lines per stroke, 3 strokes per segment,
3 units per pivot. -/
def defaultConfig : ICLConfig := ⟨5, 3, 3⟩

/-- Strokes after `_calculate_bi` and `_calculate_strengths`. -/
def pipeline_bis (cfg : ICLConfig) (df : List Bar) : List SimpleBi :=
  (calculate_strengths df (calculate_bi cfg.bi_min_kline (calculate_fx df))
    (calculate_xd cfg.xd_min_bi (calculate_bi cfg.bi_min_kline (calculate_fx df)))).1

/-- Segments after `_calculate_xd` and `_calculate_strengths`. -/
def pipeline_xds (cfg : ICLConfig) (df : List Bar) : List SimpleXD :=
  (calculate_strengths df (calculate_bi cfg.bi_min_kline (calculate_fx df))
    (calculate_xd cfg.xd_min_bi (calculate_bi cfg.bi_min_kline (calculate_fx df)))).2

/-- Stroke-level pivots (`self._bi_zss`). -/
def pipeline_bi_zss (cfg : ICLConfig) (df : List Bar) : List SimpleZS :=
  calculate_zs cfg.zs_min_bi ZSLevel.bi ((pipeline_bis cfg df).map SimpleBi.toZSItem)

/-- Segment-level pivots (`self._xd_zss`). -/
def pipeline_xd_zss (cfg : ICLConfig) (df : List Bar) : List SimpleZS :=
  calculate_zs cfg.zs_min_bi ZSLevel.xd ((pipeline_xds cfg df).map SimpleXD.toZSItem)

/-- Segments after the second-type and third-type passes, right before the
quasi pass. -/
def pipeline_xds_pre_quasi (cfg : ICLConfig) (df : List Bar) : List SimpleXD :=
  calculate_xd_class3_mmds
    (calculate_xd_bcs_and_mmds (pipeline_xds cfg df) (pipeline_xd_zss cfg df))
    (pipeline_xd_zss cfg df)

/-- The result lists of a `SimpleICL` run (what `get_bis` / `get_xds` /
`get_bi_zss` / `get_xd_zss` return). -/
structure SimpleICL where
  bis : List SimpleBi
  xds : List SimpleXD
  bi_zss : List SimpleZS
  xd_zss : List SimpleZS
deriving Repr

/-- `SimpleICL.process_klines`: the full structural computation
(an empty frame returns the untouched empty result, as in the source's
early return). -/
def process_klines (cfg : ICLConfig) (df : List Bar) : SimpleICL :=
  if df.length = 0 then ⟨[], [], [], []⟩
  else
    ⟨calculate_bi_bcs_and_mmds (pipeline_bis cfg df) (pipeline_bi_zss cfg df),
     calculate_xd_like_class2_and_class3_mmds (pipeline_xds_pre_quasi cfg df),
     pipeline_bi_zss cfg df,
     pipeline_xd_zss cfg df⟩

/-- `ChanlunEngine.analyze_klines`: validate the bar count (empty, then
below the minimum of 50), and only then run the structural pipeline.
Raised `ValueError`s become `Except.error`. -/
def analyze_klines (cfg : ICLConfig) (klines : List Bar) :
    Except String SimpleICL :=
  if klines = [] then
    Except.error "analyze_klines received an empty K-line sequence"
  else if klines.length < 50 then
    Except.error "insufficient K-lines: at least 50 required"
  else
    Except.ok (process_klines cfg klines)

lemma mem_mapIdx {α β : Type} {f : ℕ → α → β} {l : List α} {b : β}
    (h : b ∈ l.mapIdx f) : ∃ i, ∃ hi : i < l.length, b = f i l[i] := by
  rw [List.mem_iff_getElem] at h
  obtain ⟨i, hi, hb⟩ := h
  have hi' : i < l.length := by rw [← List.length_mapIdx (f := f)]; exact hi
  refine ⟨i, hi', ?_⟩
  rw [← hb, List.getElem_mapIdx]

/-- A marker name/direction combination that the second- and third-type
passes can actually produce. -/
def mmdDirOK (ty : Direction) (m : SimpleMMD) : Prop :=
  (m.name = "2buy" ∧ ty = Direction.down) ∨ (m.name = "2sell" ∧ ty = Direction.up) ∨
  (m.name = "3buy" ∧ ty = Direction.down) ∨ (m.name = "3sell" ∧ ty = Direction.up)

lemma xd_mmds_for_dirOK (xds : List SimpleXD) (zss : List SimpleZS) (i : ℕ) :
    ∀ m ∈ xd_mmds_for xds zss i, mmdDirOK (xds.getD i default).type m := by
  intro m hm
  unfold xd_mmds_for at hm
  cases hf : xd_bc_flag xds zss i with
  | none => rw [hf] at hm; cases hm
  | some bc =>
    rw [hf] at hm
    dsimp only at hm
    cases hz : bc.zs with
    | none => rw [hz] at hm; cases hm
    | some zs =>
      rw [hz] at hm
      dsimp only at hm
      split_ifs at hm with hleave hdown
      · rw [List.mem_singleton] at hm
        subst hm
        exact Or.inl ⟨rfl, hdown⟩
      · rw [List.mem_singleton] at hm
        subst hm
        refine Or.inr (Or.inl ⟨rfl, ?_⟩)
        cases hty : (xds.getD i default).type with
        | up => rfl
        | down => exact absurd hty hdown
      · cases hm

lemma calculate_xd_bcs_and_mmds_dirOK (xds : List SimpleXD) (zss : List SimpleZS)
    (hmm : ∀ xd ∈ xds, xd.mmds = []) :
    ∀ xd ∈ calculate_xd_bcs_and_mmds xds zss, ∀ m ∈ xd.mmds, mmdDirOK xd.type m := by
  intro xd hxd m hm
  obtain ⟨i, hi, hxd'⟩ := mem_mapIdx hxd
  subst hxd'
  have hm' : m ∈ xds[i].mmds ++ xd_mmds_for xds zss i := hm
  rw [hmm _ (List.getElem_mem hi), List.nil_append] at hm'
  have := xd_mmds_for_dirOK xds zss i m hm'
  rwa [List.getD_eq_getElem _ _ hi] at this

lemma findDownIdx_spec : ∀ (l : List SimpleXD) (k : ℕ), findDownIdx l = some k →
    k < l.length ∧ (l.getD k default).type = Direction.down := by
  intro l
  induction l with
  | nil => intro k h; cases h
  | cons x xs ih =>
    intro k h
    unfold findDownIdx at h
    split_ifs at h with hx
    · injection h with h; subst h; exact ⟨by simp, hx⟩
    · cases hk : findDownIdx xs with
      | none => rw [hk] at h; cases h
      | some k' =>
        rw [hk] at h
        injection h with h
        subst h
        obtain ⟨hlt, hty⟩ := ih k' hk
        exact ⟨by simpa using Nat.succ_lt_succ hlt, by simpa using hty⟩

lemma findUpIdx_spec : ∀ (l : List SimpleXD) (k : ℕ), findUpIdx l = some k →
    k < l.length ∧ (l.getD k default).type = Direction.up := by
  intro l
  induction l with
  | nil => intro k h; cases h
  | cons x xs ih =>
    intro k h
    unfold findUpIdx at h
    split_ifs at h with hx
    · injection h with h; subst h; exact ⟨by simp, hx⟩
    · cases hk : findUpIdx xs with
      | none => rw [hk] at h; cases h
      | some k' =>
        rw [hk] at h
        injection h with h
        subst h
        obtain ⟨hlt, hty⟩ := ih k' hk
        exact ⟨by simpa using Nat.succ_lt_succ hlt, by simpa using hty⟩

lemma getD_drop_add (l : List SimpleXD) (n k : ℕ) (h : k < (l.drop n).length) :
    (l.drop n).getD k default = l.getD (n + k) default := by
  have h2 : n + k < l.length := by
    rw [List.length_drop] at h; omega
  rw [List.getD_eq_getElem _ _ h, List.getD_eq_getElem _ _ h2, List.getElem_drop]

lemma class3_for_zs_dirOK (xds : List SimpleXD) (zs : SimpleZS) (j : ℕ)
    (m : SimpleMMD) (h : class3_for_zs xds zs = some (j, m)) :
    j < xds.length ∧ mmdDirOK (xds.getD j default).type m := by
  unfold class3_for_zs at h
  dsimp only at h
  cases hl : (((List.range xds.length).filter
      (fun idx => decide (zs.start_time ≤ (xds.getD idx default).start_time ∧
        (xds.getD idx default).end_time ≤ zs.end_time)))).getLast? with
  | none => rw [hl] at h; cases h
  | some last =>
    rw [hl] at h
    dsimp only at h
    cases hb : findBreakIdx zs (xds.drop (last + 1)) with
    | none => rw [hb] at h; cases h
    | some k =>
      rw [hb] at h
      dsimp only at h
      split_ifs at h with hup
      · cases hd : findDownIdx (xds.drop (last + 1 + k + 1)) with
        | none => rw [hd] at h; cases h
        | some k2 =>
          rw [hd] at h
          dsimp only at h
          split_ifs at h with hlow
          · injection h with h
            injection h with h1 h2
            subst h1
            subst h2
            obtain ⟨hlt, hty⟩ := findDownIdx_spec _ _ hd
            rw [getD_drop_add _ _ _ hlt] at hty
            constructor
            · rw [List.length_drop] at hlt; omega
            · rw [hty]
              exact Or.inr (Or.inr (Or.inl ⟨rfl, rfl⟩))
      · cases hd : findUpIdx (xds.drop (last + 1 + k + 1)) with
        | none => rw [hd] at h; cases h
        | some k2 =>
          rw [hd] at h
          dsimp only at h
          split_ifs at h with hhigh
          · injection h with h
            injection h with h1 h2
            subst h1
            subst h2
            obtain ⟨hlt, hty⟩ := findUpIdx_spec _ _ hd
            rw [getD_drop_add _ _ _ hlt] at hty
            constructor
            · rw [List.length_drop] at hlt; omega
            · rw [hty]
              exact Or.inr (Or.inr (Or.inr ⟨rfl, rfl⟩))

lemma appendMmdAt_dirOK (xds : List SimpleXD) (o : Option (ℕ × SimpleMMD))
    (hok : ∀ xd ∈ xds, ∀ m ∈ xd.mmds, mmdDirOK xd.type m)
    (ho : ∀ j m, o = some (j, m) → j < xds.length ∧ mmdDirOK (xds.getD j default).type m) :
    ∀ xd ∈ appendMmdAt xds o, ∀ m ∈ xd.mmds, mmdDirOK xd.type m := by
  cases o with
  | none => exact hok
  | some jm =>
    obtain ⟨j, mm⟩ := jm
    intro xd hxd m hm
    obtain ⟨i, hi, hxd'⟩ := mem_mapIdx hxd
    subst hxd'
    obtain ⟨hjlt, hjok⟩ := ho j mm rfl
    by_cases hij : i = j
    · rw [if_pos hij] at hm ⊢
      have hm' : m ∈ xds[i].mmds ++ [mm] := hm
      rcases List.mem_append.mp hm' with hmo | hmn
      · exact hok _ (List.getElem_mem hi) m hmo
      · rw [List.mem_singleton] at hmn
        subst hmn
        subst hij
        rwa [List.getD_eq_getElem _ _ hi] at hjok
    · rw [if_neg hij] at hm ⊢
      exact hok _ (List.getElem_mem hi) m hm

lemma calculate_xd_class3_mmds_dirOK (zss : List SimpleZS) :
    ∀ (xds : List SimpleXD),
    (∀ xd ∈ xds, ∀ m ∈ xd.mmds, mmdDirOK xd.type m) →
    ∀ xd ∈ calculate_xd_class3_mmds xds zss, ∀ m ∈ xd.mmds, mmdDirOK xd.type m := by
  unfold calculate_xd_class3_mmds
  induction zss with
  | nil => intro xds h; exact h
  | cons zs zss ih =>
    intro xds h
    rw [List.foldl_cons]
    apply ih
    apply appendMmdAt_dirOK _ _ h
    intro j m hjm
    exact class3_for_zs_dirOK xds zs j m hjm

lemma name_ne_of_dirOK {ty : Direction} {m : SimpleMMD} (h : mmdDirOK ty m)
    (s : String) (hs : s ≠ "2buy" ∧ s ≠ "2sell" ∧ s ≠ "3buy" ∧ s ≠ "3sell") :
    m.name ≠ s := by
  rcases h with ⟨h1, -⟩ | ⟨h1, -⟩ | ⟨h1, -⟩ | ⟨h1, -⟩ <;> rw [h1]
  · exact fun hc => hs.1 hc.symm
  · exact fun hc => hs.2.1 hc.symm
  · exact fun hc => hs.2.2.1 hc.symm
  · exact fun hc => hs.2.2.2 hc.symm

lemma quasiStep_none_id (xd : SimpleXD)
    (hok : ∀ m ∈ xd.mmds, mmdDirOK xd.type m) :
    quasiStep ⟨none, none, none, none⟩ xd = (xd, ⟨none, none, none, none⟩) := by
  unfold quasiStep
  dsimp only
  simp only [List.append_nil]
  have h2b : ¬ ("2buy" ∈ xd.mmds.map SimpleMMD.name ∧ xd.type = Direction.up) := by
    rintro ⟨hmem, hty⟩
    obtain ⟨m, hm, hname⟩ := List.mem_map.mp hmem
    rcases hok m hm with ⟨h1, h2⟩ | ⟨h1, h2⟩ | ⟨h1, h2⟩ | ⟨h1, h2⟩
    · rw [hty] at h2; cases h2
    · rw [hname] at h1; exact absurd h1 (by decide)
    · rw [hty] at h2; cases h2
    · rw [hname] at h1; exact absurd h1 (by decide)
  have h2s : ¬ ("2sell" ∈ xd.mmds.map SimpleMMD.name ∧ xd.type = Direction.down) := by
    rintro ⟨hmem, hty⟩
    obtain ⟨m, hm, hname⟩ := List.mem_map.mp hmem
    rcases hok m hm with ⟨h1, h2⟩ | ⟨h1, h2⟩ | ⟨h1, h2⟩ | ⟨h1, h2⟩
    · rw [hname] at h1; exact absurd h1 (by decide)
    · rw [hty] at h2; cases h2
    · rw [hname] at h1; exact absurd h1 (by decide)
    · rw [hty] at h2; cases h2
  have h3b : ¬ ("3buy" ∈ xd.mmds.map SimpleMMD.name ∧ xd.type = Direction.up) := by
    rintro ⟨hmem, hty⟩
    obtain ⟨m, hm, hname⟩ := List.mem_map.mp hmem
    rcases hok m hm with ⟨h1, h2⟩ | ⟨h1, h2⟩ | ⟨h1, h2⟩ | ⟨h1, h2⟩
    · rw [hty] at h2; cases h2
    · rw [hname] at h1; exact absurd h1 (by decide)
    · rw [hty] at h2; cases h2
    · rw [hname] at h1; exact absurd h1 (by decide)
  have h3s : ¬ ("3sell" ∈ xd.mmds.map SimpleMMD.name ∧ xd.type = Direction.down) := by
    rintro ⟨hmem, hty⟩
    obtain ⟨m, hm, hname⟩ := List.mem_map.mp hmem
    rcases hok m hm with ⟨h1, h2⟩ | ⟨h1, h2⟩ | ⟨h1, h2⟩ | ⟨h1, h2⟩
    · rw [hname] at h1; exact absurd h1 (by decide)
    · rw [hty] at h2; cases h2
    · rw [hname] at h1; exact absurd h1 (by decide)
    · rw [hty] at h2; cases h2
  rw [if_neg h2b, if_neg h2s, if_neg h3b, if_neg h3s]

lemma quasiGo_id : ∀ (xds : List SimpleXD),
    (∀ xd ∈ xds, ∀ m ∈ xd.mmds, mmdDirOK xd.type m) →
    quasiGo ⟨none, none, none, none⟩ xds = xds := by
  intro xds
  induction xds with
  | nil => intro h; rfl
  | cons xd rest ih =>
    intro h
    rw [quasiGo]
    rw [quasiStep_none_id xd (h xd (List.mem_cons_self xd rest))]
    exact congrArg (fun l => xd :: l)
      (ih (fun x hx => h x (List.mem_cons_of_mem xd hx)))

lemma calculate_xd_go_mmds_nil (m : ℕ) : ∀ (fuel xdIdx i : ℕ) (bis : List SimpleBi),
    ∀ xd ∈ calculate_xd_go m fuel xdIdx i bis, xd.mmds = [] := by
  intro fuel
  induction fuel with
  | zero => intro xdIdx i bis xd hxd; cases hxd
  | succ fuel ih =>
    intro xdIdx i bis xd hxd
    cases bis with
    | nil => cases hxd
    | cons b rest =>
      rw [calculate_xd_go] at hxd
      dsimp only at hxd
      split_ifs at hxd with hc
      · rcases List.mem_cons.mp hxd with hxd | hxd
        · rw [hxd]
        · exact ih _ _ _ xd hxd
      · exact ih _ _ _ xd hxd

lemma calculate_xd_mmds_nil (m : ℕ) (bis : List SimpleBi) :
    ∀ xd ∈ calculate_xd m bis, xd.mmds = [] := by
  intro xd hxd
  unfold calculate_xd at hxd
  split_ifs at hxd
  · cases hxd
  · exact calculate_xd_go_mmds_nil m _ _ _ bis xd hxd

lemma pipeline_xds_mmds_nil (cfg : ICLConfig) (df : List Bar) :
    ∀ xd ∈ pipeline_xds cfg df, xd.mmds = [] := by
  intro xd hxd
  unfold pipeline_xds calculate_strengths at hxd
  split_ifs at hxd
  · exact calculate_xd_mmds_nil _ _ xd hxd
  · dsimp only at hxd
    obtain ⟨y, hy, hxy⟩ := List.mem_map.mp hxd
    rw [← hxy]
    exact calculate_xd_mmds_nil _ _ y hy

/-- **C10** — the quasi-marker pass never appends anything: on every input
and configuration it is the identity on the segment list it receives, and
no segment in the final result ever carries a
`class2buy`/`class2sell`/`class3buy`/`class3sell` marker, because the
pass's trackers only record segments whose existing `2buy`/`3buy`
(resp. `2sell`/`3sell`) markers sit on an up (resp. down) segment, while
the earlier passes only attach those markers to segments of the opposite
direction. -/
theorem quasi_pass_appends_nothing (cfg : ICLConfig) (df : List Bar) :
    calculate_xd_like_class2_and_class3_mmds (pipeline_xds_pre_quasi cfg df) =
      pipeline_xds_pre_quasi cfg df ∧
    ∀ xd ∈ (process_klines cfg df).xds, ∀ m ∈ xd.mmds,
      m.name ≠ "class2buy" ∧ m.name ≠ "class2sell" ∧
      m.name ≠ "class3buy" ∧ m.name ≠ "class3sell" := by
  have hok : ∀ xd ∈ pipeline_xds_pre_quasi cfg df, ∀ m ∈ xd.mmds,
      mmdDirOK xd.type m := by
    unfold pipeline_xds_pre_quasi
    apply calculate_xd_class3_mmds_dirOK
    apply calculate_xd_bcs_and_mmds_dirOK
    exact pipeline_xds_mmds_nil cfg df
  have hid : calculate_xd_like_class2_and_class3_mmds (pipeline_xds_pre_quasi cfg df) =
      pipeline_xds_pre_quasi cfg df := quasiGo_id _ hok
  refine ⟨hid, ?_⟩
  intro xd hxd m hm
  by_cases hdf : df.length = 0
  · rw [process_klines, if_pos hdf] at hxd
    cases hxd
  · rw [process_klines, if_neg hdf] at hxd
    dsimp only at hxd
    rw [hid] at hxd
    have hdir := hok xd hxd m hm
    exact ⟨name_ne_of_dirOK hdir _ ⟨by decide, by decide, by decide, by decide⟩,
           name_ne_of_dirOK hdir _ ⟨by decide, by decide, by decide, by decide⟩,
           name_ne_of_dirOK hdir _ ⟨by decide, by decide, by decide, by decide⟩,
           name_ne_of_dirOK hdir _ ⟨by decide, by decide, by decide, by decide⟩⟩

/-- Witness for C10 at the default configuration and a concrete input. -/
theorem quasi_pass_appends_nothing_witness :
    calculate_xd_like_class2_and_class3_mmds
      (pipeline_xds_pre_quasi defaultConfig dfW) =
      pipeline_xds_pre_quasi defaultConfig dfW :=
  (quasi_pass_appends_nothing defaultConfig dfW).1

lemma calculate_xd_nil (m : ℕ) : calculate_xd m [] = [] := by
  unfold calculate_xd
  split_ifs
  · rfl
  · exact calculate_xd_go_nil m 0 0 0

/-- **C1** — because accepted strokes strictly alternate, every maximal
same-direction run scanned by `_calculate_xd` has length exactly 1, so for
every bar sequence and every configuration with
`min_strokes_per_segment ≥ 2` (the default is 3) the segment list returned
by `get_xds()` is empty, and so is the segment-level pivot list — hence
all second/third-type and quasi markers, which only attach to segments,
are vacuously absent. -/
theorem segments_always_empty (cfg : ICLConfig) (df : List Bar)
    (hxd : 2 ≤ cfg.xd_min_bi) (hzs : 1 ≤ cfg.zs_min_bi) :
    (process_klines cfg df).xds = [] ∧ (process_klines cfg df).xd_zss = [] := by
  by_cases hdf : df.length = 0
  · rw [process_klines, if_pos hdf]
    exact ⟨rfl, rfl⟩
  · have hxds : pipeline_xds cfg df = [] := by
      unfold pipeline_xds calculate_strengths
      have hnil : calculate_xd cfg.xd_min_bi
          (calculate_bi cfg.bi_min_kline (calculate_fx df)) = [] :=
        calculate_xd_of_alternating _ hxd _ (calculate_bi_chain _ _)
      split_ifs
      · exact hnil
      · dsimp only
        rw [hnil]
        rfl
    have hzss : pipeline_xd_zss cfg df = [] := by
      unfold pipeline_xd_zss
      rw [hxds]
      unfold calculate_zs
      rw [if_pos (by simp; omega)]
    have hpre : pipeline_xds_pre_quasi cfg df = [] := by
      unfold pipeline_xds_pre_quasi
      rw [hxds, hzss]
      rfl
    rw [process_klines, if_neg hdf]
    refine ⟨?_, hzss⟩
    show calculate_xd_like_class2_and_class3_mmds (pipeline_xds_pre_quasi cfg df) = []
    rw [hpre]
    rfl

/-- Witness for C1 at the default configuration and a concrete bar list. -/
theorem segments_always_empty_witness :
    ((2 : ℕ) ≤ defaultConfig.xd_min_bi ∧ (1 : ℕ) ≤ defaultConfig.zs_min_bi) ∧
    ((process_klines defaultConfig dfW).xds = [] ∧
     (process_klines defaultConfig dfW).xd_zss = []) :=
  ⟨⟨by decide, by decide⟩,
   segments_always_empty defaultConfig dfW (by decide) (by decide)⟩

/-- **C3** — `analyze_klines` fails exactly on bar sequences shorter than
the 50-bar minimum (the error is raised before any structural stage runs);
at or above the minimum it returns the full result, and when the bar data
yields no fractals every downstream list is empty rather than an error. -/
theorem analyze_klines_error_spec (cfg : ICLConfig) (klines : List Bar)
    (hzs : 1 ≤ cfg.zs_min_bi) :
    ((∃ e, analyze_klines cfg klines = Except.error e) ↔ klines.length < 50) ∧
    (50 ≤ klines.length →
      analyze_klines cfg klines = Except.ok (process_klines cfg klines)) ∧
    (∀ r, analyze_klines cfg klines = Except.ok r → calculate_fx klines = [] →
      r.bis = [] ∧ r.xds = [] ∧ r.bi_zss = [] ∧ r.xd_zss = []) := by
  by_cases hnil : klines = []
  · subst hnil
    refine ⟨⟨fun _ => by decide, fun _ => ⟨_, rfl⟩⟩, ?_, ?_⟩
    · intro h
      simp at h
    · intro r hr
      cases hr
  · rw [analyze_klines, if_neg hnil]
    by_cases h50 : klines.length < 50
    · rw [if_pos h50]
      refine ⟨⟨fun _ => h50, fun _ => ⟨_, rfl⟩⟩, ?_, ?_⟩
      · intro h
        omega
      · intro r hr
        cases hr
    · rw [if_neg h50]
      refine ⟨⟨?_, fun hlt => absurd hlt h50⟩, fun _ => rfl, ?_⟩
      · rintro ⟨e, he⟩
        cases he
      · intro r hr hfx
        injection hr with hr
        subst hr
        have hlen : ¬ klines.length = 0 := by
          intro h0
          exact hnil (List.length_eq_zero.mp h0)
        have hbis : pipeline_bis cfg klines = [] := by
          unfold pipeline_bis
          rw [hfx]
          rfl
        have hxds : pipeline_xds cfg klines = [] := by
          unfold pipeline_xds
          rw [hfx]
          show calculate_xd cfg.xd_min_bi [] = []
          exact calculate_xd_nil _
        have hbzss : pipeline_bi_zss cfg klines = [] := by
          unfold pipeline_bi_zss
          rw [hbis]
          unfold calculate_zs
          rw [if_pos (by simp; omega)]
        have hxzss : pipeline_xd_zss cfg klines = [] := by
          unfold pipeline_xd_zss
          rw [hxds]
          unfold calculate_zs
          rw [if_pos (by simp; omega)]
        rw [process_klines, if_neg hlen]
        refine ⟨?_, ?_, hbzss, hxzss⟩
        · show calculate_bi_bcs_and_mmds (pipeline_bis cfg klines)
            (pipeline_bi_zss cfg klines) = []
          rw [hbis]
          rfl
        · show calculate_xd_like_class2_and_class3_mmds
            (pipeline_xds_pre_quasi cfg klines) = []
          unfold pipeline_xds_pre_quasi
          rw [hxds, hxzss]
          rfl

/-- Witness for C3: 49 identical bars are rejected, 50 are accepted. -/
theorem analyze_klines_error_spec_witness :
    ((1 : ℕ) ≤ defaultConfig.zs_min_bi ∧
      (List.replicate 49 (default : Bar)).length < 50 ∧
      50 ≤ (List.replicate 50 (default : Bar)).length) ∧
    (analyze_klines defaultConfig (List.replicate 49 default)).isOk = false ∧
    analyze_klines defaultConfig (List.replicate 50 default) =
      Except.ok (process_klines defaultConfig (List.replicate 50 default)) := by
  refine ⟨⟨by decide, by decide, by decide⟩, ?_, ?_⟩
  · obtain ⟨e, he⟩ := (analyze_klines_error_spec defaultConfig
      (List.replicate 49 default) (by decide)).1.mpr (by decide)
    rw [he]
    rfl
  · exact (analyze_klines_error_spec defaultConfig
      (List.replicate 50 default) (by decide)).2.1 (by decide)

/-- **C4 (amended)** — `analyze_klines` performs no timestamp validation:
any sequence of at least 50 bars is accepted and passed to the structural
pipeline unchanged (in the given order, without re-sorting), regardless of
whether its timestamps are monotonic or duplicated. -/
theorem analyze_klines_no_timestamp_validation (cfg : ICLConfig)
    (klines : List Bar) (h : 50 ≤ klines.length) :
    analyze_klines cfg klines = Except.ok (process_klines cfg klines) := by
  have hne : ¬ klines = [] := by
    intro hnil
    rw [hnil] at h
    simp at h
  rw [analyze_klines, if_neg hne, if_neg (by omega)]

/-- 50 bars that all carry the same timestamp. -/
def dupBars : List Bar := List.replicate 50 ⟨7, 1, 2, 1, 1, 0⟩

/-- Counterexample to C4 as stated: a 50-bar input whose timestamps are all
duplicates is not rejected — the pipeline runs and returns a result. -/
theorem analyze_klines_accepts_duplicates_cex :
    ¬ (dupBars.map Bar.date).Pairwise (fun a b => a < b) ∧
    analyze_klines defaultConfig dupBars =
      Except.ok (process_klines defaultConfig dupBars) := by
  refine ⟨by decide, rfl⟩

/-- Witness for C4 (amended) at the duplicate-timestamp input. -/
theorem analyze_klines_no_timestamp_validation_witness :
    (50 : ℕ) ≤ dupBars.length ∧
    analyze_klines defaultConfig dupBars =
      Except.ok (process_klines defaultConfig dupBars) :=
  ⟨by decide, analyze_klines_no_timestamp_validation defaultConfig dupBars (by decide)⟩

end Chanlun
